import Mathlib

/-!
# autoannex / dirsig : directory-signature discovery

A shallow embedding of `dirsig/dirsig.go`, of `dirsigCmdNew` (`dirsig.go`) and of
`sanePrecision` (`main.go`).

Modelling conventions.

* Go strings are lists of characters (`Str`).
* The operating system is an explicit value: `FS` is the part that the code can
  change (regular files), together with the things it only reads (which physical
  directory a path string denotes, directory listings, write permission).
  `Env` holds what the process obtains from outside the tree walk: the current
  user's home directory, the text of `/proc/mounts`, and the UUID library.
* A file is addressed by the path string of the directory it is opened through
  and its entry name: both `path.Join(dir, name)` and `dir + "/" + name` address
  entry `name` of directory `dir`.
* Everything Go leaves unspecified is an explicit input (`Run`): the order in
  which walked paths arrive on the channel, the order in which `range` visits
  map keys, and the random suffix that `ioutil.TempFile` draws.
* A run-time panic (index out of range) is the result `none`.
* What the device does with a write (`WriteIO`) and the outcome of
  `uuid.NewV4()` are inputs of the functions that write.
* A `time.Duration` is an integer number of nanoseconds; arithmetic on it wraps
  into the range of `int64` (`wrap64`).
-/

namespace Dirsig

/-- Go `string`. -/
abbrev Str := List Char

/-! ## Operating-system model -/

/-- One `os.FileInfo` of a directory listing: entry name and `IsDir()`. -/
structure FileInfo where
  Name : Str
  IsDir : Bool
deriving DecidableEq, Repr

/-- File-system state.  Physical directories are numbered; two path strings are
aliases when `dirOf` sends them to the same number. -/
structure FS where
  /-- the physical directory a path string denotes, if it denotes one -/
  dirOf : Str → Option Nat
  /-- result of `ioutil.ReadDir` on a non-empty path string (`none`: error) -/
  listing : Str → Option (List FileInfo)
  /-- content of the regular file stored under an entry name of a physical directory -/
  file : Nat → Str → Option Str
  /-- whether files may be created or written through this path string -/
  writable : Str → Bool

/-- What the process reads from outside the walked tree. -/
structure Env where
  /-- result of `user.Current()`: the home directory, `none` when the lookup fails -/
  HomeDir : Option Str
  /-- content of `/proc/mounts`, `none` when it cannot be opened -/
  procMounts : Option Str
  /-- result of `uuid.ParseHex` followed by `UUID.String`: the printed form of the parsed
  identifier, `none` when parsing fails -/
  ParseHex : Str → Option Str

/-- The `Signature` struct. -/
structure Signature where
  UUID : Str
  Filename : Str
deriving DecidableEq, Repr

/-- The choices Go leaves open in one execution of `Find`. -/
structure Run where
  /-- walked paths reach `Find` by increasing `arrival` (goroutine scheduling) -/
  arrival : Str → Nat
  /-- the loop `range groups` visits signatures by increasing `groupOrder` -/
  groupOrder : Signature → Nat
  /-- the loop `range j` visits the paths of a bucket by increasing `keyOrder` -/
  keyOrder : Str → Nat
  /-- the random suffix `ioutil.TempFile` draws when called for a directory (a
  call of `Find` probes a directory path at most once) -/
  rnd : Str → Str

/-- A file address: directory path string and entry name. -/
abbrev FilePath := Str × Str

/-- Model of `path.Join(dir, name)`. -/
def pathJoin (dir name : Str) : FilePath := (dir, name)

/-- Model of the concatenation `dir + "/" + name`. -/
def slashJoin (dir name : Str) : FilePath := (dir, name)

/-- Model of `ioutil.ReadFile`. -/
def ReadFile (fs : FS) (p : FilePath) : Option Str :=
  match fs.dirOf p.1 with
  | some d => fs.file d p.2
  | none => none

/-- Model of `os.Stat(...)` succeeding (`err == nil`).  The entries of a
directory that the model knows are the regular files of the file store; an
entry of another kind under the same name is outside the model. -/
def Stat (fs : FS) (p : FilePath) : Bool :=
  (ReadFile fs p).isSome

/-- File store with one entry set to `c`. -/
def setFile (fs : FS) (d : Nat) (name : Str) (c : Option Str) : FS :=
  { fs with file := fun d1 n1 => if d1 = d ∧ n1 = name then c else fs.file d1 n1 }

/-- What the device does with the data of one write once the file is open: how
many bytes it stores, and whether `Write` and `Close` report no error. -/
structure WriteIO where
  stored : Nat
  ok : Bool
deriving DecidableEq, Repr

/-- Model of `ioutil.WriteFile(p, data, 0644)`: the file system it leaves and
whether it returns no error.  The file is opened with `O_TRUNC`: when opening
fails nothing changes; once it is open the old content is gone and the file
holds the bytes the device stored, and the call succeeds only if all bytes were
stored and no error was reported. -/
def WriteFile (fs : FS) (io : WriteIO) (p : FilePath) (data : Str) : FS × Bool :=
  match fs.dirOf p.1 with
  | some d =>
    if fs.writable p.1 then
      (setFile fs d p.2 (some (data.take io.stored)),
        io.ok && decide (data.length ≤ io.stored))
    else (fs, false)
  | none => (fs, false)

/-- Model of `ioutil.TempFile(dir, pfx)` with drawn suffix `sfx`: the file is
created exclusively (it must not exist yet) and is empty.  Returns the new state
and the base name of the file. -/
def TempFile (fs : FS) (dir pfx sfx : Str) : Option (FS × Str) :=
  match fs.dirOf dir with
  | some d =>
    if fs.writable dir ∧ fs.file d (pfx ++ sfx) = none then
      some (setFile fs d (pfx ++ sfx) (some []), pfx ++ sfx)
    else none
  | none => none

/-- Model of `os.Remove` on a regular file. -/
def Remove (fs : FS) (p : FilePath) : FS :=
  match fs.dirOf p.1 with
  | some d => setFile fs d p.2 none
  | none => fs

/-! ## dirsig.go -/

/-- The `ignoreFilesystems` table. -/
def ignoreFilesystems : List Str :=
  ["binfmt_misc".toList, "cgroup".toList, "configfs".toList, "debugfs".toList,
   "devpts".toList, "devtmpfs".toList, "fuse.gvfsd-fuse".toList, "fusectl".toList,
   "mqueue".toList, "proc".toList, "pstore".toList, "securityfs".toList,
   "sysfs".toList, "xenfs".toList]

/-- Function `hackExpandStringEscape`: `strings.Replace(in, "\\040", " ", -1)`,
every occurrence of the four characters backslash, 0, 4, 0 becomes a space. -/
def hackExpandStringEscape : Str → Str
  | '\\' :: '0' :: '4' :: '0' :: rest => ' ' :: hackExpandStringEscape rest
  | c :: rest => c :: hackExpandStringEscape rest
  | [] => []

/-- Model of `strings.Trim(s, cutset)`: leading and trailing characters of the
cut set are removed. -/
def Trim (s cutset : Str) : Str :=
  (s.dropWhile (fun c => decide (c ∈ cutset))).rdropWhile (fun c => decide (c ∈ cutset))

/-- Method `(s *Signature) sigFile(dir)`. -/
def Signature.sigFile (s : Signature) (dir : Str) : FilePath :=
  pathJoin dir s.Filename

/-- Method `(s Signature) Write(dir)`: the file system it leaves and whether
`err` is nil. -/
def Signature.Write (s : Signature) (fs : FS) (io : WriteIO) (dir : Str) : FS × Bool :=
  WriteFile fs io (s.sigFile dir) (s.UUID ++ ['\n'])

/-- Function `ReadSignature(dir, filename)`: `none` is an error. -/
def ReadSignature (env : Env) (fs : FS) (dir filename : Str) : Option Signature :=
  let s : Signature := { UUID := [], Filename := filename }
  match ReadFile fs (s.sigFile dir) with
  | none => none
  | some b =>
    match env.ParseHex (Trim b ['\n']) with
    | none => none
    | some u => some { UUID := u, Filename := [] }

/-- Model of `ioutil.ReadDir`: opening the empty path fails. -/
def ReadDir (fs : FS) (i : Str) : Option (List FileInfo) :=
  if i = [] then none else fs.listing i

/-- The path of child `name` of `i`, as built in `recurseSubdirectories`:
`i + name` when `i` ends in a slash, `i + "/" + name` otherwise. -/
def childPath (i name : Str) : Str :=
  if i.getLast? = some '/' then i ++ name else i ++ '/' :: name

/-- The closure `r(i, d)` of `recurseSubdirectories`: the paths it sends on `out`
(listed parent first, children in listing order). -/
def r (fs : FS) (dirHint : Str) : Nat → Str → List Str
  | 0, i => [i]
  | d + 1, i =>
    i :: (match ReadDir fs i with
      | none => []
      | some files =>
        files.flatMap fun f =>
          if f.IsDir then
            if dirHint ≠ [] ∧ f.Name ≠ dirHint then []
            else r fs dirHint d (childPath i f.Name)
          else [])

/-- Function `recurseSubdirectories(in, dirHint, depth)`: roots are handled one after the
other. -/
def recurseSubdirectories (fs : FS) (inp : List Str) (dirHint : Str) (depth : Nat) :
    List Str :=
  inp.flatMap fun i => r fs dirHint depth (hackExpandStringEscape i)

/-- The successive successful results of `b.ReadString('\n')` on a text: every
chunk ends with the newline; what follows the last newline makes the call fail
and is not returned here.  `acc` is the part of the current line already read. -/
def readStrings : Str → Str → List Str
  | _, [] => []
  | acc, c :: cs =>
    if c = '\n' then (acc ++ [c]) :: readStrings [] cs else readStrings (acc ++ [c]) cs

/-- Model of `strings.SplitN(s, " ", n)` for `n ≥ 0`. -/
def SplitN : Nat → Str → List Str
  | 0, _ => []
  | 1, s => [s]
  | n + 2, s =>
    match s.span (fun c => c != ' ') with
    | (a, []) => [a]
    | (a, _ :: rest) => a :: SplitN (n + 1) rest

/-- One turn of the loop of `enumerateMountpoints` on a line that was read:
`none` is the index panic, `some none` an ignored file system, `some (some p)`
the path sent on `out`. -/
def mountLine (line : Str) : Option (Option Str) :=
  let c := SplitN 4 (Trim line ['\r', '\n'])
  match c.get? 2 with
  | none => none
  | some t =>
    if t ∈ ignoreFilesystems then some none
    else (c.get? 1).map some

/-- The loop of `enumerateMountpoints` over the lines read. -/
def mountLoop : List Str → Option (List Str)
  | [] => some []
  | line :: rest =>
    match mountLine line with
    | none => none
    | some none => mountLoop rest
    | some (some p) => (mountLoop rest).map (fun ps => p :: ps)

/-- Function `enumerateMountpoints()`: the paths sent on `out`, `none` when the goroutine
panics. -/
def enumerateMountpoints (env : Env) : Option (List Str) :=
  match env.procMounts with
  | none => some []
  | some text => mountLoop (readStrings [] text)

/-- The values sent on `out` in `searchLocations`: the home directory, then the mount
points. -/
def searchRoots (env : Env) (ms : List Str) : List Str :=
  (match env.HomeDir with
    | some h => [h]
    | none => []) ++ ms

/-- Function `searchLocations(dirHint, depth)`: home directory first, then the mount
points, all walked by `recurseSubdirectories`. -/
def searchLocations (env : Env) (fs : FS) (dirHint : Str) (depth : Nat) :
    Option (List Str) :=
  match enumerateMountpoints env with
  | none => none
  | some ms => some (recurseSubdirectories fs (searchRoots env ms) dirHint depth)

/-- The map `groups` of `Find`: signature keys with their path sets. -/
abbrev Groups := List (Signature × List Str)

/-- The map `groupsList` that `Find` returns. -/
abbrev GroupsList := Str → Option (List Str)

/-- Map assignment `gl[u] = v`. -/
def mapSet (gl : GroupsList) (u : Str) (v : List Str) : GroupsList :=
  fun u1 => if u1 = u then some v else gl u1

/-- The statements `if groups[*s] == nil { groups[*s] = make(...) }` and
`groups[*s][i] = struct{}{}`. -/
def addPath : Groups → Signature → Str → Groups
  | [], s, i => [(s, [i])]
  | (s1, j) :: rest, s, i =>
    if s1 = s then (s1, if i ∈ j then j else j ++ [i]) :: rest
    else (s1, j) :: addPath rest s i

/-- Body of the first loop of `Find` for one received path. -/
def groupStep (env : Env) (fs : FS) (filename : Str) (groups : Groups) (i : Str) : Groups :=
  let i1 := hackExpandStringEscape i
  match ReadSignature env fs i1 filename with
  | none => groups
  | some s => addPath groups s i1

/-- Keys or paths in the order in which a `range` or the channel delivers them. -/
def orderBy {α : Type} (rank : α → Nat) (l : List α) : List α :=
  l.insertionSort (fun a b => rank a ≤ rank b)

/-- The probe made for member `k` of bucket `j`: create the probe file in `k`,
delete from `j` every other member in which it is visible, remove the probe. -/
def probeStep (run : Run) (fs : FS) (j : List Str) (k : Str) : List Str × FS :=
  match TempFile fs k ".goannex".toList (run.rnd k) with
  | some (fs1, name) =>
    (j.filter (fun l => l == k || !(Stat fs1 (slashJoin l name))),
     Remove fs1 (pathJoin k name))
  | none => (j, fs)

/-- The loop `for k := range j` of `Find` on the bucket of `uuid`.  `ks` are the
keys still to be visited, in visiting order; a key deleted before its turn is
not visited.  After every visit `groupsList[uuid]` is set to the current
members. -/
def aliasLoop (run : Run) (uuid : Str) :
    List Str → List Str → FS → GroupsList → List Str × FS × GroupsList
  | [], j, fs, gl => (j, fs, gl)
  | k :: ks, j, fs, gl =>
    if k ∈ j then
      aliasLoop run uuid ks (probeStep run fs j k).1 (probeStep run fs j k).2
        (mapSet gl uuid (probeStep run fs j k).1)
    else aliasLoop run uuid ks j fs gl

/-- The loop `for s, j := range groups` of `Find`. -/
def rangeGroups (run : Run) : Groups → FS → GroupsList → GroupsList × FS
  | [], fs, gl => (gl, fs)
  | (s, j) :: rest, fs, gl =>
    rangeGroups run rest
      (aliasLoop run s.UUID (orderBy run.keyOrder j) j fs gl).2.1
      (aliasLoop run s.UUID (orderBy run.keyOrder j) j fs gl).2.2

/-- The map `groups` after the first loop of `Find` has received the paths `m`. -/
def buckets (env : Env) (fs : FS) (run : Run) (filename : Str) (m : List Str) : Groups :=
  (orderBy run.arrival m).foldl (groupStep env fs filename) []

/-- The body of `Find` once the walk has delivered the paths `m`: the returned
map and the file system it leaves. -/
def findFrom (env : Env) (fs : FS) (run : Run) (filename : Str) (m : List Str) :
    GroupsList × FS :=
  rangeGroups run
    (orderBy (fun g => run.groupOrder g.1) (buckets env fs run filename m)) fs (fun _ => none)

/-- Function `Find(filename, dirHint, depth)`: `none` when the mount enumeration panics. -/
def Find (env : Env) (fs : FS) (run : Run) (filename dirHint : Str) (depth : Nat) :
    Option (GroupsList × FS) :=
  (searchLocations env fs dirHint depth).map (findFrom env fs run filename)

/-! ## Vocabulary of the statements -/

/-- Two path strings denote the same physical directory. -/
def sameDir (fs : FS) (p q : Str) : Bool :=
  match fs.dirOf p, fs.dirOf q with
  | some a, some b => a == b
  | _, _ => false

/-- A probe file can be created through path `k`. -/
def canProbe (fs : FS) (k : Str) : Bool :=
  match fs.dirOf k with
  | some _ => fs.writable k
  | none => false

/-- The probe names of a run are new: no directory holds an entry with a name that
`ioutil.TempFile` draws in this run (the probe marker is uniquely named). -/
def FreshProbes (fs : FS) (run : Run) : Prop :=
  ∀ k l d, fs.dirOf l = some d → fs.file d (".goannex".toList ++ run.rnd k) = none

/-- Path `p` is listed under identifier `u` in a returned map. -/
def inGroup (gl : GroupsList) (u p : Str) : Prop :=
  ∃ l, gl u = some l ∧ p ∈ l

/-- What one visit of `for k := range j` does to the bucket when probe names are
new: if the probe can be created, every other member in the same physical
directory is deleted. -/
def collapse (fs : FS) (j : List Str) (k : Str) : List Str :=
  if canProbe fs k then j.filter (fun l => l == k || !(sameDir fs l k)) else j

/-- The bucket after the visits `ks`, when probe names are new. -/
def collapseAll (fs : FS) : List Str → List Str → List Str
  | [], j => j
  | k :: ks, j => if k ∈ j then collapseAll fs ks (collapse fs j k) else collapseAll fs ks j

/-- Path `p` is recorded under signature `s` in `groups`. -/
def member (G : Groups) (s : Signature) (p : Str) : Prop :=
  ∃ j, (s, j) ∈ G ∧ p ∈ j

/-- Shape of `groups`: one bucket per identifier, keys carry no file name, no
bucket is empty. -/
def GroupsOk (G : Groups) : Prop :=
  (G.map (fun g => g.1.UUID)).Nodup ∧ ∀ g ∈ G, g.1.Filename = [] ∧ g.2 ≠ []

/-! ## Concrete worlds used to evaluate the code -/

/-- The identifier of the scenario of the specification. -/
def uuid1 : Str := "11111111-1111-4111-8111-111111111111".toList

/-- The default signature file name. -/
def sigName : Str := ".signature".toList

/-- Characters of the canonical textual form of an identifier. -/
def hexDigits : Str := "0123456789abcdef".toList

/-- The canonical textual form of a 128-bit identifier: 36 characters, hyphens at
positions 8, 13, 18 and 23, lower-case hexadecimal digits elsewhere. -/
def isCanonicalUUID (u : Str) : Bool :=
  u.length == 36 &&
    (List.range 36).all fun i =>
      match u.get? i with
      | some c => if i ∈ [8, 13, 18, 23] then c == '-' else decide (c ∈ hexDigits)
      | none => false

/-- A UUID library for the concrete worlds: it accepts the canonical textual form
and prints it back unchanged. -/
def canonicalOnly (s : Str) : Option Str :=
  if isCanonicalUUID s then some s else none

/-- A finite file system: path strings with the number of their physical
directory, directory listings, files (directory number, name, content) and the
path strings that are read-only. -/
def mkFS (dirs : List (Str × Nat)) (lists : List (Str × List FileInfo))
    (files : List (Nat × Str × Str)) (readOnly : List Str) : FS where
  dirOf := fun p => dirs.lookup p
  listing := fun p =>
    match lists.lookup p with
    | some l => some l
    | none => if (dirs.lookup p).isSome then some [] else none
  file := fun d n => (files.find? (fun f => f.1 == d && f.2.1 == n)).map (fun f => f.2.2)
  writable := fun p => !(readOnly.contains p)

/-- A run that visits paths by increasing `rank` and draws the suffix `123`. -/
def mkRun (rank : Str → Nat) : Run where
  arrival := fun _ => 0
  groupOrder := fun _ => 0
  keyOrder := rank
  rnd := fun _ => "123".toList

/-- The scenario of the specification: `/home/u/project-a` and
`/mnt/backup/project-a` are two physical directories with the same signature. -/
def scenarioEnv : Env where
  HomeDir := some "/home/u".toList
  procMounts := some
    "proc /proc proc rw,nosuid 0 0\n/dev/sdb1 /mnt/backup ext4 rw,relatime 0 0\n".toList
  ParseHex := canonicalOnly

/-- File system of the scenario. -/
def scenarioFS : FS :=
  mkFS
    [("/home/u".toList, 1), ("/home/u/project-a".toList, 2),
     ("/mnt/backup".toList, 3), ("/mnt/backup/project-a".toList, 4)]
    [("/home/u".toList, [⟨"project-a".toList, true⟩, ⟨"notes.txt".toList, false⟩]),
     ("/mnt/backup".toList, [⟨"project-a".toList, true⟩])]
    [(2, sigName, uuid1 ++ ['\n']), (4, sigName, uuid1 ++ ['\n'])]
    []

/-- The scenario with both signed directories on read-only mounts: nothing can
be written through their paths. -/
def scenarioReadOnlyFS : FS :=
  mkFS
    [("/home/u".toList, 1), ("/home/u/project-a".toList, 2),
     ("/mnt/backup".toList, 3), ("/mnt/backup/project-a".toList, 4)]
    [("/home/u".toList, [⟨"project-a".toList, true⟩, ⟨"notes.txt".toList, false⟩]),
     ("/mnt/backup".toList, [⟨"project-a".toList, true⟩])]
    [(2, sigName, uuid1 ++ ['\n']), (4, sigName, uuid1 ++ ['\n'])]
    ["/home/u/project-a".toList, "/mnt/backup/project-a".toList]

/-- Three path strings for one physical directory: the home directory is also
mounted at `/mnt/a` and at `/mnt/b`. -/
def tripleEnv : Env where
  HomeDir := some "/home/u".toList
  procMounts := some
    "/dev/sda2 /mnt/a ext4 rw,relatime 0 0\n/dev/sda2 /mnt/b ext4 rw,relatime 0 0\n".toList
  ParseHex := canonicalOnly

/-- File system of the three aliases, the directory holding a signature. -/
def tripleFS : FS :=
  mkFS [("/home/u".toList, 1), ("/mnt/a".toList, 1), ("/mnt/b".toList, 1)] []
    [(1, sigName, uuid1 ++ ['\n'])] []

/-- A mounted disk whose top level holds a directory literally named with the
four characters of the escape: `a\040b`. -/
def escapeEnv : Env where
  HomeDir := some "/home/u".toList
  procMounts := some "/dev/sdc1 /mnt/usb ext4 rw,relatime 0 0\n".toList
  ParseHex := canonicalOnly

/-- File system with the signed directory `/mnt/usb/a\040b`; there is no
directory `/mnt/usb/a b`. -/
def escapeFS : FS :=
  mkFS
    [("/home/u".toList, 1), ("/mnt/usb".toList, 2), ("/mnt/usb/a\\040b".toList, 3)]
    [("/mnt/usb".toList, [⟨"a\\040b".toList, true⟩])]
    [(3, sigName, uuid1 ++ ['\n'])]
    []

/-- A disk mounted on a directory whose name contains a space, as the mount
table writes it. -/
def spaceEnv : Env where
  HomeDir := none
  procMounts := some "/dev/sdd1 /mnt/my\\040disk ext4 rw,relatime 0 0\n".toList
  ParseHex := canonicalOnly

/-- File system with the mount point `/mnt/my disk` and a subdirectory. -/
def spaceFS : FS :=
  mkFS [("/mnt/my disk".toList, 1), ("/mnt/my disk/project-a".toList, 2)]
    [("/mnt/my disk".toList, [⟨"project-a".toList, true⟩, ⟨"other".toList, true⟩])]
    [(2, sigName, uuid1 ++ ['\n'])] []

/-- The name `seg` is the name of a directory in some listing of the file
system. -/
def listedDir (fs : FS) (seg : Str) : Prop :=
  ∃ dir files f, ReadDir fs dir = some files ∧ f ∈ files ∧ f.IsDir = true ∧ f.Name = seg

/-- One entry of the mount table: device, mount path, file-system type and,
when present, the remaining fields (options, dump, pass). -/
structure MountRecord where
  device : Str
  path : Str
  fstype : Str
  rest : Option Str
deriving DecidableEq, Repr

/-- The line of an entry, fields separated by single spaces, without the
newline. -/
def MountRecord.line (e : MountRecord) : Str :=
  e.device ++ ' ' :: (e.path ++ ' ' :: (e.fstype ++
    match e.rest with
    | some rest => ' ' :: rest
    | none => []))

/-- The remaining fields, when present, hold no newline. -/
def restOk : Option Str → Prop
  | some rest => '\n' ∉ rest
  | none => True

instance : (o : Option Str) → Decidable (restOk o)
  | some rest => inferInstanceAs (Decidable ('\n' ∉ rest))
  | none => isTrue trivial

/-- Device and path hold neither a space nor a newline, the type neither a
space, a newline nor a carriage return, the remaining fields no newline. -/
def MountRecord.wellFormed (e : MountRecord) : Prop :=
  (' ' ∉ e.device ∧ '\n' ∉ e.device) ∧ (' ' ∉ e.path ∧ '\n' ∉ e.path) ∧
    (' ' ∉ e.fstype ∧ '\n' ∉ e.fstype ∧ '\r' ∉ e.fstype) ∧ restOk e.rest

instance (e : MountRecord) : Decidable e.wellFormed := by
  unfold MountRecord.wellFormed
  infer_instance

/-- A mount table of three entries, the second of an ignored type. -/
def sampleRecords : List MountRecord :=
  [⟨"/dev/sda1".toList, "/".toList, "ext4".toList, some "rw 0 0".toList⟩,
   ⟨"proc".toList, "/proc".toList, "proc".toList, some "rw,nosuid 0 0".toList⟩,
   ⟨"/dev/sdb1".toList, "/mnt/backup".toList, "ext4".toList, none⟩]

/-- The text of a mount table: every entry on a line ended by a newline,
followed by `last`, a line that is not ended by a newline (possibly empty). -/
def mountTable (es : List MountRecord) (last : Str) : Str :=
  es.flatMap (fun e => e.line ++ ['\n']) ++ last

/-- An environment whose mount table is the given text. -/
def envOfMounts (text : Str) : Env where
  HomeDir := none
  procMounts := some text
  ParseHex := canonicalOnly

/-! ## dirsig.go of package main -/

/-- Function `NewSignature(filename)`, given the outcome of `uuid.NewV4()` as printed by
`String()`; `none` is the panic on a failed draw. -/
def NewSignature (newV4 : Option Str) (filename : Str) : Option Signature :=
  match newV4 with
  | none => none
  | some u => some { UUID := u, Filename := filename }

/-- Function `dirsigCmdNew()` with the flag values `*sigNewPath`, `*appSigFilename` and
`*sigNewForce`: the file system it leaves (`none`: panic).  Whether `Write`
returns an error or not, the command ends with the file system `Write` left;
the messages it prints are not modelled. -/
def dirsigCmdNew (fs : FS) (io : WriteIO) (newV4 : Option Str)
    (sigNewPath appSigFilename : Str) (sigNewForce : Bool) : Option FS :=
  let dir := sigNewPath
  let file := pathJoin dir appSigFilename
  if !sigNewForce && Stat fs file then some fs
  else
    match NewSignature newV4 appSigFilename with
    | none => none
    | some s =>
      match s.Write fs io dir with
      | (fs1, true) => some fs1
      | (fs1, false) => some fs1

/-- A device that stores everything and reports no error. -/
def fullWrite : WriteIO where
  stored := 4096
  ok := true

/-- A device that stores nothing and reports an error (no space left). -/
def failedWrite : WriteIO where
  stored := 0
  ok := false

/-- Lower-case letters and digits, the class `[a-z0-9]`. -/
def alnumLower : Str := "abcdefghijklmnopqrstuvwxyz0123456789".toList

/-- The optional group `(urn\:uuid\:)?` at the start of the pattern. -/
def dropUrn : Str → Str
  | 'u' :: 'r' :: 'n' :: ':' :: 'u' :: 'u' :: 'i' :: 'd' :: ':' :: rest => rest
  | s => s

/-- The optional opening brace of the pattern. -/
def dropOpen : Str → Str
  | '{' :: rest => rest
  | s => s

/-- The optional closing brace at the end of the pattern. -/
def dropClose (s : Str) : Str :=
  if s.getLast? = some '}' then s.dropLast else s

/-- The five groups of the pattern of the UUID library, hyphens included:
`([a-z0-9]{8})-([a-z0-9]{4})-([1-5][a-z0-9]{3})-([a-z0-9]{4})-([a-z0-9]{12})`. -/
def hexPatternCore (u : Str) : Bool :=
  u.length == 36 &&
    (List.range 36).all fun i =>
      match u.get? i with
      | some c =>
        if i ∈ [8, 13, 18, 23] then c == '-'
        else if i = 14 then decide (c ∈ "12345".toList)
        else decide (c ∈ alnumLower)
      | none => false

/-- Model of `uuid.ParseHex` followed by `String` of the library
`github.com/nu7hatch/gouuid`, which the repository imports: the text must match
the pattern (optional `urn:uuid:`, optional braces, version digit 1 to 5), its
32 digits must decode as hexadecimal, and the identifier is printed in the
canonical lower-case form. -/
def gouuidParseHex (s : Str) : Option Str :=
  let core := dropClose (dropOpen (dropUrn s))
  if hexPatternCore core && core.all (fun c => c == '-' || decide (c ∈ hexDigits)) then
    some core
  else none

/-- The nil identifier: canonical textual form, version digit 0. -/
def nilUUID : Str := "00000000-0000-0000-0000-000000000000".toList

/-- The scenario environment with the UUID library modelled by `gouuidParseHex`. -/
def gouuidEnv : Env where
  HomeDir := some "/home/u".toList
  procMounts := some
    "proc /proc proc rw,nosuid 0 0\n/dev/sdb1 /mnt/backup ext4 rw,relatime 0 0\n".toList
  ParseHex := gouuidParseHex

/-- The specification's reading of the trimming in `ReadSignature` (C8): only
newlines at the end of the content are removed. -/
def trimTrailingNewline (s : Str) : Str :=
  s.rdropWhile (fun c => c == '\n')

/-- A second identifier, for a forced overwrite. -/
def uuid2 : Str := "22222222-2222-4222-8222-222222222222".toList

/-- A signed directory whose signature file starts with an empty line. -/
def leadingNewlineFS : FS :=
  mkFS [("/home/u".toList, 1), ("/home/u/project-a".toList, 2)]
    [("/home/u".toList, [⟨"project-a".toList, true⟩])]
    [(2, sigName, '\n' :: (uuid1 ++ ['\n']))] []

/-- Environment of `leadingNewlineFS`: no mounts besides the home directory. -/
def homeOnlyEnv : Env where
  HomeDir := some "/home/u".toList
  procMounts := some []
  ParseHex := canonicalOnly

/-- A directory whose signature file does not hold an identifier. -/
def malformedFS : FS :=
  mkFS [("/home/u".toList, 1), ("/home/u/project-a".toList, 2)]
    [("/home/u".toList, [⟨"project-a".toList, true⟩])]
    [(2, sigName, "not an identifier\n".toList)] []

/-! ## main.go: `sanePrecision` -/

/-- Wrap-around of an integer result into the range of `int64`, the type under
`time.Duration`. -/
def wrap64 (x : Int) : Int :=
  (x + 9223372036854775808) % 18446744073709551616 - 9223372036854775808

/-- Constant `time.Microsecond`, in nanoseconds. -/
def Microsecond : Int := 1000

/-- Constant `time.Millisecond`, in nanoseconds. -/
def Millisecond : Int := 1000000

/-- Constant `time.Second`, in nanoseconds. -/
def Second : Int := 1000000000

/-- Constant `time.Minute`, in nanoseconds. -/
def Minute : Int := 60000000000

/-- Constant `time.Hour`, in nanoseconds. -/
def Hour : Int := 3600000000000

/-- The map literal `order` of `sanePrecision`: threshold and rounding unit. -/
def order : List (Int × Int) :=
  [(Millisecond, Microsecond), (Second, Millisecond), (Minute, Second), (Hour, Second)]

/-- The expression `((d + j/2) / j) * j` on `time.Duration`: every operation
wraps into `int64`, division truncates toward zero. -/
def roundExpr (d j : Int) : Int :=
  wrap64 ((wrap64 (d + Int.tdiv j 2)).tdiv j * j)

/-- The loop `for i, j := range order` of `sanePrecision` over the entries in
visiting order: the value returned from inside the loop, `none` when the loop
ends without returning. -/
def sanePrecisionLoop (d : Int) : List (Int × Int) → Option Int
  | [] => none
  | (i, j) :: rest =>
    if d < i then
      if i = 0 then some d else some (roundExpr d j)
    else sanePrecisionLoop d rest

/-- Function `sanePrecision(d)`; `iter` is the order in which `range order`
visits the thresholds (by increasing `iter`). -/
def sanePrecision (iter : Int → Nat) (d : Int) : Int :=
  match sanePrecisionLoop d (orderBy (fun e => iter e.1) order) with
  | some res => res
  | none => roundExpr d Minute

/-- The rounding unit the comments of `sanePrecision` pair with a duration: the
unit of the smallest threshold greater than `d`, the minute from one hour on. -/
def saneUnit (d : Int) : Int :=
  if d < Millisecond then Microsecond
  else if d < Second then Millisecond
  else if d < Hour then Second
  else Minute

/-- The duration `d` rounded to the nearest multiple of its unit (halves go
up), over the integers. -/
def sanePrecisionSpec (d : Int) : Int :=
  (d + saneUnit d / 2) / saneUnit d * saneUnit d

/-- Iteration that visits the thresholds in increasing order. -/
def ascending (i : Int) : Nat := i.toNat

/-- Iteration that visits the threshold `first` before all others. -/
def startingAt (first : Int) (i : Int) : Nat := if i = first then 0 else 1

/-- The scenario with a stale file in `/mnt/backup/project-a` that carries the
name of a probe, `.goannex123`. -/
def staleFS : FS :=
  mkFS
    [("/home/u".toList, 1), ("/home/u/project-a".toList, 2),
     ("/mnt/backup".toList, 3), ("/mnt/backup/project-a".toList, 4)]
    [("/home/u".toList, [⟨"project-a".toList, true⟩, ⟨"notes.txt".toList, false⟩]),
     ("/mnt/backup".toList, [⟨"project-a".toList, true⟩])]
    [(2, sigName, uuid1 ++ ['\n']), (4, sigName, uuid1 ++ ['\n']),
     (4, ".goannex123".toList, [])]
    []

/-- The scenario with the home directory also mounted at `/mnt/bind`. -/
def bindEnv : Env where
  HomeDir := some "/home/u".toList
  procMounts := some
    ("/dev/sdb1 /mnt/backup ext4 rw,relatime 0 0\n" ++
      "/dev/sda2 /mnt/bind ext4 rw,relatime 0 0\n").toList
  ParseHex := canonicalOnly

/-- File system of `bindEnv`: `/mnt/bind/project-a` is the physical directory of
`/home/u/project-a`. -/
def bindFS : FS :=
  mkFS
    [("/home/u".toList, 1), ("/home/u/project-a".toList, 2),
     ("/mnt/backup".toList, 3), ("/mnt/backup/project-a".toList, 4),
     ("/mnt/bind".toList, 1), ("/mnt/bind/project-a".toList, 2)]
    [("/home/u".toList, [⟨"project-a".toList, true⟩]),
     ("/mnt/backup".toList, [⟨"project-a".toList, true⟩]),
     ("/mnt/bind".toList, [⟨"project-a".toList, true⟩])]
    [(2, sigName, uuid1 ++ ['\n']), (4, sigName, uuid1 ++ ['\n'])]
    []

/-! # Theorems -/

/-! ## The probe leaves the file system as it was -/

theorem setFile_restore (fs : FS) (d : Nat) (n : Str) (c : Option Str)
    (h : fs.file d n = none) : setFile (setFile fs d n c) d n none = fs := by
  cases fs with
  | mk dirOf listing file writable =>
    simp only [setFile, FS.mk.injEq, true_and, and_true]
    funext d1 n1
    by_cases hc : d1 = d ∧ n1 = n
    · obtain ⟨rfl, rfl⟩ := hc
      simpa using h.symm
    · simp [hc]

theorem probeStep_eq (run : Run) (fs : FS) (hf : FreshProbes fs run) (j : List Str) (k : Str) :
    probeStep run fs j k = (collapse fs j k, fs) := by
  unfold probeStep TempFile collapse canProbe
  cases hk : fs.dirOf k with
  | none => simp
  | some d =>
    have hfree : fs.file d (".goannex".toList ++ run.rnd k) = none := hf k k d hk
    cases hw : fs.writable k with
    | false => simp
    | true =>
      simp only [hfree, and_self, if_true]
      refine Prod.ext ?_ ?_
      · simp only
        apply List.filter_congr
        intro l _
        congr 2
        unfold Stat ReadFile slashJoin sameDir setFile
        simp only [hk]
        cases hl : fs.dirOf l with
        | none => simp
        | some d1 =>
          by_cases hd : d1 = d
          · subst hd; simp
          · have h1 := hf k l d1 hl
            simp only [h1]
            simp [hd]
      · simp only [Remove, pathJoin, setFile, hk]
        exact setFile_restore fs d _ _ hfree

/-- The alias notion of the statements is the operational one: a probe file
created through `A` is visible through `B` exactly when both path strings denote
the same physical directory (the name being new in the directory of `B`). -/
theorem probe_visible_iff_sameDir (fs fs1 : FS) (A B pfx sfx name : Str)
    (h : TempFile fs A pfx sfx = some (fs1, name))
    (hB : ∀ d, fs.dirOf B = some d → fs.file d name = none) :
    Stat fs1 (slashJoin B name) = sameDir fs A B := by
  unfold TempFile at h
  cases hA : fs.dirOf A with
  | none => rw [hA] at h; exact absurd h (by simp)
  | some a =>
    rw [hA] at h
    simp only at h
    split at h
    · simp only [Option.some.injEq, Prod.mk.injEq] at h
      obtain ⟨h1, h2⟩ := h
      subst h1 h2
      unfold Stat ReadFile slashJoin sameDir setFile
      simp only [hA]
      cases hb : fs.dirOf B with
      | none => simp
      | some b =>
        by_cases hab : b = a
        · subst hab; simp
        · have hba : ¬ a = b := fun h => hab h.symm
          simp [hab, hba, hB b hb]
    · exact absurd h (by simp)

/-! ## The alias loop on one bucket -/

theorem mapSet_mapSet (gl : GroupsList) (u : Str) (a b : List Str) :
    mapSet (mapSet gl u a) u b = mapSet gl u b := by
  funext x
  by_cases hx : x = u <;> simp [mapSet, hx]

theorem sameDir_comm (fs : FS) (p q : Str) : sameDir fs p q = sameDir fs q p := by
  unfold sameDir
  cases fs.dirOf p <;> cases fs.dirOf q <;> simp [eq_comm]

theorem mem_collapse_iff (fs : FS) (j : List Str) (k l : Str) :
    l ∈ collapse fs j k ↔
      l ∈ j ∧ (canProbe fs k = false ∨ l = k ∨ sameDir fs l k = false) := by
  unfold collapse
  cases hc : canProbe fs k <;> simp [List.mem_filter]

theorem collapse_subset (fs : FS) (j : List Str) (k l : Str) (h : l ∈ collapse fs j k) :
    l ∈ j :=
  ((mem_collapse_iff fs j k l).1 h).1

theorem collapseAll_subset (fs : FS) :
    ∀ (ks j : List Str) (l : Str), l ∈ collapseAll fs ks j → l ∈ j := by
  intro ks
  induction ks with
  | nil => intro j l h; simpa [collapseAll] using h
  | cons k ks ih =>
    intro j l h
    by_cases hk : k ∈ j
    · rw [collapseAll, if_pos hk] at h
      exact collapse_subset fs j k l (ih _ l h)
    · rw [collapseAll, if_neg hk] at h
      exact ih _ l h

theorem collapseAll_not_visited (fs : FS) :
    ∀ (ks j : List Str), (∀ k ∈ ks, k ∉ j) → collapseAll fs ks j = j := by
  intro ks
  induction ks with
  | nil => intro j _; rfl
  | cons k ks ih =>
    intro j h
    have hk : k ∉ j := h k (List.mem_cons_self k ks)
    rw [collapseAll, if_neg hk]
    exact ih j (fun k1 h1 => h k1 (List.mem_cons_of_mem k h1))

/-- A member with no other member in its physical directory is never deleted. -/
theorem collapseAll_keeps_isolated (fs : FS) :
    ∀ (ks j : List Str) (K : Str), K ∈ j →
      (∀ l ∈ j, l ≠ K → sameDir fs l K = false) → K ∈ collapseAll fs ks j := by
  intro ks
  induction ks with
  | nil => intro j K hK _; simpa [collapseAll] using hK
  | cons k ks ih =>
    intro j K hK hiso
    by_cases hk : k ∈ j
    · rw [collapseAll, if_pos hk]
      apply ih
      · rw [mem_collapse_iff]
        refine ⟨hK, ?_⟩
        by_cases hkK : K = k
        · exact Or.inr (Or.inl hkK)
        · right; right
          rw [sameDir_comm]
          exact hiso k hk (fun h => hkK h.symm)
      · intro l hl hne
        exact hiso l (collapse_subset fs j k l hl) hne
    · rw [collapseAll, if_neg hk]
      exact ih j K hK hiso

/-- A deleted member leaves behind a member of the same physical directory, one
through which the probe could be created. -/
theorem collapseAll_removed (fs : FS) :
    ∀ (ks j : List Str) (Q : Str), Q ∈ j → Q ∉ collapseAll fs ks j →
      ∃ P, P ∈ collapseAll fs ks j ∧ P ≠ Q ∧ sameDir fs P Q = true ∧ canProbe fs P = true := by
  intro ks
  induction ks with
  | nil => intro j Q hQ hn; exact absurd (by simpa [collapseAll] using hQ) hn
  | cons k ks ih =>
    intro j Q hQ hn
    by_cases hk : k ∈ j
    · rw [collapseAll, if_pos hk] at hn ⊢
      by_cases hQ1 : Q ∈ collapse fs j k
      · exact ih _ Q hQ1 hn
      · have hdel : ¬ (canProbe fs k = false ∨ Q = k ∨ sameDir fs Q k = false) := by
          intro h
          exact hQ1 ((mem_collapse_iff fs j k Q).2 ⟨hQ, h⟩)
        have hcp : canProbe fs k = true := by
          cases hc : canProbe fs k with
          | true => rfl
          | false => exact absurd (Or.inl hc) hdel
        have hQk : Q ≠ k := fun h => hdel (Or.inr (Or.inl h))
        have hsd : sameDir fs Q k = true := by
          cases hc : sameDir fs Q k with
          | true => rfl
          | false => exact absurd (Or.inr (Or.inr hc)) hdel
        refine ⟨k, ?_, fun h => hQk h.symm, ?_, hcp⟩
        · apply collapseAll_keeps_isolated
          · rw [mem_collapse_iff]
            exact ⟨hk, Or.inr (Or.inl rfl)⟩
          · intro l hl hne
            rcases ((mem_collapse_iff fs j k l).1 hl).2 with h | h | h
            · rw [hcp] at h; exact absurd h (by simp)
            · exact absurd h hne
            · exact h
        · rw [sameDir_comm]; exact hsd
    · rw [collapseAll, if_neg hk] at hn ⊢
      exact ih j Q hQ hn

/-- Once every member has had its turn, a member through which the probe can be
created has no other member in its physical directory. -/
theorem collapseAll_probing_isolated (fs : FS) :
    ∀ (ks j : List Str),
      (∀ P ∈ j, P ∈ ks ∨ canProbe fs P = false ∨ ∀ l ∈ j, l ≠ P → sameDir fs l P = false) →
      ∀ P ∈ collapseAll fs ks j,
        canProbe fs P = false ∨ ∀ l ∈ collapseAll fs ks j, l ≠ P → sameDir fs l P = false := by
  intro ks
  induction ks with
  | nil =>
    intro j h P hP
    rcases h P hP with h1 | h1 | h1
    · exact absurd h1 (List.not_mem_nil P)
    · exact Or.inl h1
    · exact Or.inr h1
  | cons k ks ih =>
    intro j h P hP
    by_cases hk : k ∈ j
    · rw [collapseAll, if_pos hk] at hP ⊢
      refine ih _ ?_ P hP
      intro P1 hP1
      have hP1j := collapse_subset fs j k P1 hP1
      rcases h P1 hP1j with h1 | h1 | h1
      · rcases List.mem_cons.1 h1 with h2 | h2
        · subst h2
          cases hc : canProbe fs P1 with
          | false => exact Or.inr (Or.inl rfl)
          | true =>
            right; right
            intro l hl hne
            rcases ((mem_collapse_iff fs j P1 l).1 hl).2 with h3 | h3 | h3
            · rw [hc] at h3; exact absurd h3 (by simp)
            · exact absurd h3 hne
            · exact h3
        · exact Or.inl h2
      · exact Or.inr (Or.inl h1)
      · exact Or.inr (Or.inr (fun l hl hne => h1 l (collapse_subset fs j k l hl) hne))
    · rw [collapseAll, if_neg hk] at hP ⊢
      refine ih j ?_ P hP
      intro P1 hP1
      rcases h P1 hP1 with h1 | h1 | h1
      · rcases List.mem_cons.1 h1 with h2 | h2
        · subst h2; exact absurd hP1 hk
        · exact Or.inl h2
      · exact Or.inr (Or.inl h1)
      · exact Or.inr (Or.inr h1)

/-- With new probe names, the loop `for k := range j` computes `collapseAll`,
restores the file system and, when it visits at least one key, leaves the final
members in `groupsList[uuid]`. -/
theorem aliasLoop_eq (run : Run) (fs : FS) (hf : FreshProbes fs run) (uuid : Str) :
    ∀ (ks j : List Str) (gl : GroupsList),
      (aliasLoop run uuid ks j fs gl).1 = collapseAll fs ks j ∧
      (aliasLoop run uuid ks j fs gl).2.1 = fs ∧
      ((∃ k, k ∈ ks ∧ k ∈ j) →
        (aliasLoop run uuid ks j fs gl).2.2 = mapSet gl uuid (collapseAll fs ks j)) ∧
      ((∀ k ∈ ks, k ∉ j) → (aliasLoop run uuid ks j fs gl).2.2 = gl) := by
  intro ks
  induction ks with
  | nil =>
    intro j gl
    refine ⟨rfl, rfl, ?_, fun _ => rfl⟩
    rintro ⟨k, hk, _⟩
    exact absurd hk (List.not_mem_nil k)
  | cons k ks ih =>
    intro j gl
    by_cases hk : k ∈ j
    · simp only [aliasLoop, collapseAll, if_pos hk, probeStep_eq run fs hf]
      obtain ⟨h1, h2, h3, h4⟩ := ih (collapse fs j k) (mapSet gl uuid (collapse fs j k))
      refine ⟨h1, h2, ?_, ?_⟩
      · intro _
        by_cases hv : ∃ k1, k1 ∈ ks ∧ k1 ∈ collapse fs j k
        · rw [h3 hv, mapSet_mapSet]
        · have hv1 : ∀ k1 ∈ ks, k1 ∉ collapse fs j k := fun k1 hk1 hk2 => hv ⟨k1, hk1, hk2⟩
          rw [h4 hv1, collapseAll_not_visited fs ks _ hv1]
      · intro hn
        exact absurd hk (hn k (List.mem_cons_self k ks))
    · simp only [aliasLoop, collapseAll, if_neg hk]
      obtain ⟨h1, h2, h3, h4⟩ := ih j gl
      refine ⟨h1, h2, ?_, ?_⟩
      · rintro ⟨k1, hk1, hk2⟩
        rcases List.mem_cons.1 hk1 with h5 | h5
        · subst h5; exact absurd hk2 hk
        · exact h3 ⟨k1, h5, hk2⟩
      · intro hn
        exact h4 (fun k1 hk1 => hn k1 (List.mem_cons_of_mem k hk1))

/-! ## The map `groups` -/

theorem member_addPath_of_member (s : Signature) (i : Str) (s1 : Signature) (p : Str) :
    ∀ G : Groups, member G s1 p → member (addPath G s i) s1 p := by
  intro G
  induction G with
  | nil => rintro ⟨j, hj, _⟩; exact absurd hj (List.not_mem_nil _)
  | cons g G ih =>
    obtain ⟨s0, j0⟩ := g
    rintro ⟨j, hj, hp⟩
    by_cases h0 : s0 = s
    · rw [addPath, if_pos h0]
      rcases List.mem_cons.1 hj with h | h
      · obtain ⟨rfl, rfl⟩ := Prod.mk.inj h
        refine ⟨_, List.mem_cons_self _ _, ?_⟩
        by_cases hi : i ∈ j
        · rw [if_pos hi]; exact hp
        · rw [if_neg hi]; exact List.mem_append_left _ hp
      · exact ⟨j, List.mem_cons_of_mem _ h, hp⟩
    · rw [addPath, if_neg h0]
      rcases List.mem_cons.1 hj with h | h
      · exact ⟨j, h ▸ List.mem_cons_self _ _, hp⟩
      · obtain ⟨j1, hj1, hp1⟩ := ih ⟨j, h, hp⟩
        exact ⟨j1, List.mem_cons_of_mem _ hj1, hp1⟩

theorem member_addPath_self (s : Signature) (i : Str) :
    ∀ G : Groups, member (addPath G s i) s i := by
  intro G
  induction G with
  | nil => exact ⟨[i], by simp [addPath], by simp⟩
  | cons g G ih =>
    obtain ⟨s0, j0⟩ := g
    by_cases h0 : s0 = s
    · rw [addPath, if_pos h0]
      subst h0
      refine ⟨_, List.mem_cons_self _ _, ?_⟩
      by_cases hi : i ∈ j0
      · rw [if_pos hi]; exact hi
      · rw [if_neg hi]; simp
    · rw [addPath, if_neg h0]
      obtain ⟨j1, hj1, hp1⟩ := ih
      exact ⟨j1, List.mem_cons_of_mem _ hj1, hp1⟩

theorem member_addPath_inv (s : Signature) (i : Str) (s1 : Signature) (p : Str) :
    ∀ G : Groups, member (addPath G s i) s1 p → member G s1 p ∨ (s1 = s ∧ p = i) := by
  intro G
  induction G with
  | nil =>
    rintro ⟨j, hj, hp⟩
    simp only [addPath, List.mem_singleton, Prod.mk.injEq] at hj
    obtain ⟨rfl, rfl⟩ := hj
    exact Or.inr ⟨rfl, by simpa using hp⟩
  | cons g G ih =>
    obtain ⟨s0, j0⟩ := g
    rintro ⟨j, hj, hp⟩
    by_cases h0 : s0 = s
    · rw [addPath, if_pos h0] at hj
      rcases List.mem_cons.1 hj with h | h
      · obtain ⟨h1, h2⟩ := Prod.mk.inj h
        subst h1
        by_cases hi : i ∈ j0
        · rw [if_pos hi] at h2
          subst h2
          exact Or.inl ⟨j, List.mem_cons_self _ _, hp⟩
        · rw [if_neg hi] at h2
          subst h2
          rcases List.mem_append.1 hp with h3 | h3
          · exact Or.inl ⟨j0, List.mem_cons_self _ _, h3⟩
          · exact Or.inr ⟨h0, by simpa using h3⟩
      · exact Or.inl ⟨j, List.mem_cons_of_mem _ h, hp⟩
    · rw [addPath, if_neg h0] at hj
      rcases List.mem_cons.1 hj with h | h
      · exact Or.inl ⟨j, h ▸ List.mem_cons_self _ _, hp⟩
      · rcases ih ⟨j, h, hp⟩ with ⟨j1, hj1, hp1⟩ | h1
        · exact Or.inl ⟨j1, List.mem_cons_of_mem _ hj1, hp1⟩
        · exact Or.inr h1

theorem addPath_keys (s : Signature) (i : Str) :
    ∀ G : Groups, (∀ g ∈ G, g.1.Filename = []) → s.Filename = [] →
      (addPath G s i).map (fun g => g.1.UUID) =
        if s.UUID ∈ G.map (fun g => g.1.UUID) then G.map (fun g => g.1.UUID)
        else G.map (fun g => g.1.UUID) ++ [s.UUID] := by
  intro G
  induction G with
  | nil => intro _ _; simp [addPath]
  | cons g G ih =>
    obtain ⟨s0, j0⟩ := g
    intro hG hs
    have h00 : s0.Filename = [] := hG (s0, j0) (List.mem_cons_self _ _)
    by_cases h0 : s0 = s
    · rw [addPath, if_pos h0]
      subst h0
      simp
    · have hu : s.UUID ≠ s0.UUID := by
        intro h
        apply h0
        cases s0; cases s
        simp_all
      rw [addPath, if_neg h0]
      simp only [List.map_cons, List.mem_cons, hu, false_or]
      rw [ih (fun g hg => hG g (List.mem_cons_of_mem _ hg)) hs]
      split <;> simp

theorem addPath_ok (s : Signature) (i : Str) (G : Groups) (hG : GroupsOk G)
    (hs : s.Filename = []) : GroupsOk (addPath G s i) := by
  obtain ⟨h1, h2⟩ := hG
  refine ⟨?_, ?_⟩
  · rw [addPath_keys s i G (fun g hg => (h2 g hg).1) hs]
    split
    · exact h1
    · rename_i hn
      exact List.Nodup.append h1 (List.nodup_singleton _) (by simpa using hn)
  · clear h1
    induction G with
    | nil =>
      intro g hg
      simp only [addPath, List.mem_singleton] at hg
      subst hg
      exact ⟨hs, by simp⟩
    | cons g0 G ih =>
      obtain ⟨s0, j0⟩ := g0
      intro g hg
      by_cases h0 : s0 = s
      · rw [addPath, if_pos h0] at hg
        rcases List.mem_cons.1 hg with h | h
        · subst h
          refine ⟨(h2 _ (List.mem_cons_self _ _)).1, ?_⟩
          have hne := (h2 _ (List.mem_cons_self _ _)).2
          simp only
          split
          · exact hne
          · simp
        · exact h2 g (List.mem_cons_of_mem _ h)
      · rw [addPath, if_neg h0] at hg
        rcases List.mem_cons.1 hg with h | h
        · subst h; exact h2 _ (List.mem_cons_self _ _)
        · exact ih (fun g hg => h2 g (List.mem_cons_of_mem _ hg)) g h

theorem ReadSignature_filename (env : Env) (fs : FS) (dir filename : Str) (s : Signature)
    (h : ReadSignature env fs dir filename = some s) : s.Filename = [] := by
  unfold ReadSignature at h
  simp only at h
  split at h
  · exact absurd h (by simp)
  · split at h
    · exact absurd h (by simp)
    · cases h; rfl

theorem groupStep_ok (env : Env) (fs : FS) (filename : Str) (G : Groups) (i : Str)
    (hG : GroupsOk G) : GroupsOk (groupStep env fs filename G i) := by
  unfold groupStep
  simp only
  split
  · exact hG
  · rename_i s hs
    exact addPath_ok s _ G hG (ReadSignature_filename env fs _ filename s hs)

theorem foldl_groupStep_ok (env : Env) (fs : FS) (filename : Str) :
    ∀ (m : List Str) (G : Groups), GroupsOk G →
      GroupsOk (m.foldl (groupStep env fs filename) G) := by
  intro m
  induction m with
  | nil => intro G hG; exact hG
  | cons i m ih =>
    intro G hG
    exact ih _ (groupStep_ok env fs filename G i hG)

/-- What the first loop records: path `p` is under `s` exactly when it was there
before or it is the expansion of a received path whose signature reads as `s`. -/
theorem member_foldl_groupStep (env : Env) (fs : FS) (filename : Str) (s : Signature)
    (p : Str) :
    ∀ (m : List Str) (G : Groups),
      member (m.foldl (groupStep env fs filename) G) s p ↔
        member G s p ∨
          ∃ i, i ∈ m ∧ p = hackExpandStringEscape i ∧
            ReadSignature env fs p filename = some s := by
  intro m
  induction m with
  | nil =>
    intro G
    simp
  | cons i m ih =>
    intro G
    rw [List.foldl_cons, ih]
    constructor
    · rintro (h | ⟨i1, hi1, h1, h2⟩)
      · unfold groupStep at h
        simp only at h
        split at h
        · exact Or.inl h
        · rename_i s1 hs1
          rcases member_addPath_inv s1 _ s p G h with h3 | ⟨h3, h4⟩
          · exact Or.inl h3
          · subst h3 h4
            exact Or.inr ⟨i, List.mem_cons_self _ _, rfl, hs1⟩
      · exact Or.inr ⟨i1, List.mem_cons_of_mem _ hi1, h1, h2⟩
    · rintro (h | ⟨i1, hi1, h1, h2⟩)
      · left
        unfold groupStep
        simp only
        split
        · exact h
        · exact member_addPath_of_member _ _ s p G h
      · rcases List.mem_cons.1 hi1 with h3 | h3
        · subst h3
          left
          unfold groupStep
          simp only
          rw [← h1, h2]
          simp only
          rw [h1]
          exact member_addPath_self s _ G
        · exact Or.inr ⟨i1, h3, h1, h2⟩

theorem mem_orderBy {α : Type} (rank : α → Nat) (l : List α) (x : α) :
    x ∈ orderBy rank l ↔ x ∈ l :=
  (List.perm_insertionSort _ l).mem_iff

theorem GroupsOk_nil : GroupsOk [] := by
  constructor
  · simp
  · intro g hg; exact absurd hg (List.not_mem_nil g)

theorem buckets_ok (env : Env) (fs : FS) (run : Run) (filename : Str) (m : List Str) :
    GroupsOk (buckets env fs run filename m) :=
  foldl_groupStep_ok env fs filename _ [] GroupsOk_nil

theorem member_buckets (env : Env) (fs : FS) (run : Run) (filename : Str) (m : List Str)
    (s : Signature) (p : Str) :
    member (buckets env fs run filename m) s p ↔
      ∃ i, i ∈ m ∧ p = hackExpandStringEscape i ∧
        ReadSignature env fs p filename = some s := by
  unfold buckets
  rw [member_foldl_groupStep]
  constructor
  · rintro (⟨j, hj, _⟩ | ⟨i, hi, h⟩)
    · exact absurd hj (List.not_mem_nil _)
    · exact ⟨i, (mem_orderBy _ _ _).1 hi, h⟩
  · rintro ⟨i, hi, h⟩
    exact Or.inr ⟨i, (mem_orderBy _ _ _).2 hi, h⟩

theorem GroupsOk_orderBy (rank : Signature × List Str → Nat) (G : Groups) (hG : GroupsOk G) :
    GroupsOk (orderBy rank G) := by
  refine ⟨?_, fun g hg => hG.2 g ((mem_orderBy rank G g).1 hg)⟩
  exact ((List.perm_insertionSort _ G).map _).nodup_iff.2 hG.1

/-! ## The loop over the buckets -/

theorem rangeGroups_eq (run : Run) (fs : FS) (hf : FreshProbes fs run) :
    ∀ (L : Groups) (gl : GroupsList), GroupsOk L →
      (rangeGroups run L fs gl).2 = fs ∧
      (∀ g ∈ L, (rangeGroups run L fs gl).1 g.1.UUID =
        some (collapseAll fs (orderBy run.keyOrder g.2) g.2)) ∧
      (∀ u, (∀ g ∈ L, g.1.UUID ≠ u) → (rangeGroups run L fs gl).1 u = gl u) := by
  intro L
  induction L with
  | nil =>
    intro gl _
    refine ⟨rfl, ?_, fun _ _ => rfl⟩
    intro g hg; exact absurd hg (List.not_mem_nil g)
  | cons g0 L ih =>
    obtain ⟨s, j⟩ := g0
    intro gl hL
    have hL1 : GroupsOk L :=
      ⟨(List.nodup_cons.1 hL.1).2, fun g hg => hL.2 g (List.mem_cons_of_mem _ hg)⟩
    have hnot : ∀ g ∈ L, g.1.UUID ≠ s.UUID := by
      intro g hg h
      exact (List.nodup_cons.1 hL.1).1 (List.mem_map.2 ⟨g, hg, h⟩)
    have hj : j ≠ [] := (hL.2 (s, j) (List.mem_cons_self _ _)).2
    obtain ⟨_, h2, h3, _⟩ := aliasLoop_eq run fs hf s.UUID (orderBy run.keyOrder j) j gl
    have hvis : ∃ k, k ∈ orderBy run.keyOrder j ∧ k ∈ j := by
      obtain ⟨k, hk⟩ := List.exists_mem_of_ne_nil j hj
      exact ⟨k, (mem_orderBy _ _ _).2 hk, hk⟩
    have h3 := h3 hvis
    simp only [rangeGroups]
    rw [h2, h3]
    obtain ⟨i1, i2, i3⟩ := ih (mapSet gl s.UUID (collapseAll fs (orderBy run.keyOrder j) j)) hL1
    refine ⟨i1, ?_, ?_⟩
    · intro g hg
      rcases List.mem_cons.1 hg with h | h
      · subst h
        rw [i3 s.UUID hnot]
        simp [mapSet]
      · exact i2 g h
    · intro u hu
      rw [i3 u (fun g hg => hu g (List.mem_cons_of_mem _ hg))]
      have : u ≠ s.UUID := fun h => hu (s, j) (List.mem_cons_self _ _) h.symm
      simp [mapSet, this]

/-- The result of the body of `Find`, bucket by bucket. -/
theorem findFrom_eq (env : Env) (fs : FS) (run : Run) (hf : FreshProbes fs run)
    (filename : Str) (m : List Str) :
    (findFrom env fs run filename m).2 = fs ∧
    (∀ g ∈ buckets env fs run filename m,
      (findFrom env fs run filename m).1 g.1.UUID =
        some (collapseAll fs (orderBy run.keyOrder g.2) g.2)) ∧
    (∀ u, (∀ g ∈ buckets env fs run filename m, g.1.UUID ≠ u) →
      (findFrom env fs run filename m).1 u = none) := by
  obtain ⟨h1, h2, h3⟩ := rangeGroups_eq run fs hf
    (orderBy (fun g => run.groupOrder g.1) (buckets env fs run filename m)) (fun _ => none)
    (GroupsOk_orderBy _ _ (buckets_ok env fs run filename m))
  refine ⟨h1, ?_, ?_⟩
  · intro g hg
    exact h2 g ((mem_orderBy _ _ _).2 hg)
  · intro u hu
    exact h3 u (fun g hg => hu g ((mem_orderBy _ _ _).1 hg))

/-! ## Facts that do not depend on the probe names -/

theorem probeStep_fs (run : Run) (fs : FS) (j : List Str) (k : Str) :
    (probeStep run fs j k).2 = fs := by
  unfold probeStep TempFile
  cases hk : fs.dirOf k with
  | none => rfl
  | some d =>
    simp only
    split
    · rename_i fs1 name heq
      split at heq
      · rename_i hc
        cases heq
        simp only [Remove, pathJoin, setFile, hk]
        exact setFile_restore fs d _ _ hc.2
      · exact absurd heq (by simp)
    · rfl

theorem probeStep_subset (run : Run) (fs : FS) (j : List Str) (k l : Str)
    (h : l ∈ (probeStep run fs j k).1) : l ∈ j := by
  unfold probeStep at h
  split at h
  · exact (List.mem_filter.1 h).1
  · exact h

theorem aliasLoop_sound (run : Run) (fs : FS) (uuid : Str) :
    ∀ (ks j : List Str) (gl : GroupsList),
      (aliasLoop run uuid ks j fs gl).2.1 = fs ∧
      ∀ u l, (aliasLoop run uuid ks j fs gl).2.2 u = some l →
        gl u = some l ∨ ∀ p ∈ l, p ∈ j := by
  intro ks
  induction ks with
  | nil => intro j gl; exact ⟨rfl, fun u l h => Or.inl h⟩
  | cons k ks ih =>
    intro j gl
    by_cases hk : k ∈ j
    · simp only [aliasLoop, if_pos hk, probeStep_fs]
      obtain ⟨h1, h2⟩ := ih (probeStep run fs j k).1 (mapSet gl uuid (probeStep run fs j k).1)
      refine ⟨h1, ?_⟩
      intro u l hl
      rcases h2 u l hl with h3 | h3
      · by_cases hu : u = uuid
        · simp only [mapSet, hu, if_true, Option.some.injEq] at h3
          subst h3
          exact Or.inr (fun p hp => probeStep_subset run fs j k p hp)
        · simp only [mapSet, hu, if_false] at h3
          exact Or.inl h3
      · exact Or.inr (fun p hp => probeStep_subset run fs j k p (h3 p hp))
    · simp only [aliasLoop, if_neg hk]
      exact ih j gl

theorem rangeGroups_sound (run : Run) (fs : FS) :
    ∀ (L : Groups) (gl : GroupsList),
      (rangeGroups run L fs gl).2 = fs ∧
      ∀ u l, (rangeGroups run L fs gl).1 u = some l →
        gl u = some l ∨ ∃ g, g ∈ L ∧ ∀ p ∈ l, p ∈ g.2 := by
  intro L
  induction L with
  | nil => intro gl; exact ⟨rfl, fun u l h => Or.inl h⟩
  | cons g0 L ih =>
    obtain ⟨s, j⟩ := g0
    intro gl
    obtain ⟨h1, h2⟩ := aliasLoop_sound run fs s.UUID (orderBy run.keyOrder j) j gl
    simp only [rangeGroups, h1]
    obtain ⟨i1, i2⟩ := ih (aliasLoop run s.UUID (orderBy run.keyOrder j) j fs gl).2.2
    refine ⟨i1, ?_⟩
    intro u l hl
    rcases i2 u l hl with h3 | ⟨g, hg, h3⟩
    · rcases h2 u l h3 with h4 | h4
      · exact Or.inl h4
      · exact Or.inr ⟨(s, j), List.mem_cons_self _ _, h4⟩
    · exact Or.inr ⟨g, List.mem_cons_of_mem _ hg, h3⟩

/-- Every path of the returned map is the expansion of a received path whose
signature could be read. -/
theorem findFrom_sound (env : Env) (fs : FS) (run : Run) (filename : Str) (m : List Str)
    (u p : Str) (h : inGroup (findFrom env fs run filename m).1 u p) :
    ∃ s i, i ∈ m ∧ p = hackExpandStringEscape i ∧
      ReadSignature env fs p filename = some s := by
  obtain ⟨l, hl, hp⟩ := h
  rcases (rangeGroups_sound run fs _ _).2 u l hl with h1 | ⟨g, hg, h1⟩
  · exact absurd h1 (by simp)
  · have hm : member (buckets env fs run filename m) g.1 p :=
      ⟨g.2, (mem_orderBy _ _ _).1 hg, h1 p hp⟩
    exact ⟨g.1, (member_buckets env fs run filename m g.1 p).1 hm⟩

/-! ## Alias collapse (C1, C2) -/

theorem sameDir_trans (fs : FS) (p q t : Str) (h1 : sameDir fs p q = true)
    (h2 : sameDir fs q t = true) : sameDir fs p t = true := by
  unfold sameDir at *
  cases hp : fs.dirOf p <;> cases hq : fs.dirOf q <;> cases ht : fs.dirOf t <;>
    simp_all

theorem sameDir_self (fs : FS) (p q : Str) (h : sameDir fs p q = true) :
    sameDir fs p p = true := by
  unfold sameDir at *
  cases hp : fs.dirOf p <;> cases hq : fs.dirOf q <;> simp_all

theorem canProbe_of (fs : FS) (p q : Str) (h : sameDir fs p q = true)
    (hw : fs.writable p = true) : canProbe fs p = true := by
  unfold sameDir at h
  unfold canProbe
  cases hp : fs.dirOf p <;> cases hq : fs.dirOf q <;> simp_all

theorem Find_eq (env : Env) (fs : FS) (run : Run) (filename dirHint : Str) (depth : Nat)
    (m : List Str) (hm : searchLocations env fs dirHint depth = some m) :
    Find env fs run filename dirHint depth = some (findFrom env fs run filename m) := by
  simp [Find, hm]

theorem orderBy_visits_all (fs : FS) (rank : Str → Nat) (j : List Str) :
    ∀ P ∈ j, P ∈ orderBy rank j ∨ canProbe fs P = false ∨
      ∀ l ∈ j, l ≠ P → sameDir fs l P = false :=
  fun P hP => Or.inl ((mem_orderBy rank j P).2 hP)

/-- C1, counterexample: `/home/u`, `/mnt/a` and `/mnt/b` are three path strings
of one writable physical directory whose signature reads as a valid identifier;
all three are visited.  When the bucket is iterated `/mnt/b` first, `Find`
returns only `/mnt/b`: of the two aliases `/home/u` and `/mnt/a` it returns
neither. -/
theorem third_alias_drops_both :
    searchLocations tripleEnv tripleFS [] 0 =
        some ["/home/u".toList, "/mnt/a".toList, "/mnt/b".toList] ∧
      "/home/u".toList ≠ "/mnt/a".toList ∧
      sameDir tripleFS "/home/u".toList "/mnt/a".toList = true ∧
      tripleFS.writable "/home/u".toList = true ∧
      tripleFS.writable "/mnt/a".toList = true ∧
      ReadSignature tripleEnv tripleFS "/home/u".toList sigName = some ⟨uuid1, []⟩ ∧
      ReadSignature tripleEnv tripleFS "/mnt/a".toList sigName = some ⟨uuid1, []⟩ ∧
      (Find tripleEnv tripleFS (mkRun fun p => if p = "/mnt/b".toList then 0 else 1)
          sigName [] 0).map (fun res => res.1 uuid1) = some (some ["/mnt/b".toList]) ∧
      "/home/u".toList ∉ ["/mnt/b".toList] ∧ "/mnt/a".toList ∉ ["/mnt/b".toList] := by
  decide

/-- C1, amended: let `A` and `B` be distinct path strings of the same physical
directory, `A` visited by the walk and free of the escape `\040`, the directory
writable through `A`, its signature reading as the identifier `u`, and the probe
names new.  Then, whatever the iteration orders, `Find` returns, and the list it
returns for `u` never contains both `A` and `B` and contains exactly one path of
that physical directory (which may be a third alias, neither `A` nor `B`). -/
theorem Find_alias_collapse (env : Env) (fs : FS) (run : Run)
    (filename dirHint : Str) (depth : Nat) (m : List Str) (A B u : Str)
    (hm : searchLocations env fs dirHint depth = some m)
    (hfresh : FreshProbes fs run)
    (hA : A ∈ m) (hexp : hackExpandStringEscape A = A)
    (hAB : sameDir fs A B = true) (hne : A ≠ B)
    (hw : fs.writable A = true)
    (hu : ReadSignature env fs A filename = some ⟨u, []⟩) :
    ∃ res, Find env fs run filename dirHint depth = some res ∧
      ¬ (inGroup res.1 u A ∧ inGroup res.1 u B) ∧
      ∃ P, inGroup res.1 u P ∧ sameDir fs P A = true ∧
        ∀ P1, inGroup res.1 u P1 → sameDir fs P1 A = true → P1 = P := by
  refine ⟨_, Find_eq env fs run filename dirHint depth m hm, ?_⟩
  obtain ⟨j, hj, hAj⟩ :=
    (member_buckets env fs run filename m ⟨u, []⟩ A).2 ⟨A, hA, hexp.symm, hu⟩
  have hgl := (findFrom_eq env fs run hfresh filename m).2.1 _ hj
  simp only at hgl
  have hin : ∀ P, inGroup (findFrom env fs run filename m).1 u P ↔
      P ∈ collapseAll fs (orderBy run.keyOrder j) j := by
    intro P
    unfold inGroup
    rw [hgl]
    simp
  have hcp : canProbe fs A = true := canProbe_of fs A B hAB hw
  have hiso := collapseAll_probing_isolated fs (orderBy run.keyOrder j) j
    (orderBy_visits_all fs run.keyOrder j)
  refine ⟨?_, ?_⟩
  · rintro ⟨h1, h2⟩
    rw [hin] at h1 h2
    rcases hiso A h1 with h3 | h3
    · rw [hcp] at h3; exact absurd h3 (by simp)
    · have := h3 B h2 (fun h => hne h.symm)
      rw [sameDir_comm, hAB] at this
      exact absurd this (by simp)
  · by_cases hAr : A ∈ collapseAll fs (orderBy run.keyOrder j) j
    · refine ⟨A, (hin A).2 hAr, sameDir_self fs A B hAB, ?_⟩
      intro P1 hP1 hs
      by_contra hP1A
      rcases hiso A hAr with h3 | h3
      · rw [hcp] at h3; exact absurd h3 (by simp)
      · have := h3 P1 ((hin P1).1 hP1) hP1A
        rw [hs] at this
        exact absurd this (by simp)
    · obtain ⟨P, hP, _, hPA, hPc⟩ :=
        collapseAll_removed fs (orderBy run.keyOrder j) j A hAj hAr
      refine ⟨P, (hin P).2 hP, hPA, ?_⟩
      intro P1 hP1 hs
      by_contra hP1P
      rcases hiso P hP with h3 | h3
      · rw [hPc] at h3; exact absurd h3 (by simp)
      · have := h3 P1 ((hin P1).1 hP1) hP1P
        rw [sameDir_trans fs P1 A P hs (by rw [sameDir_comm]; exact hPA)] at this
        exact absurd this (by simp)

theorem FreshProbes_triple (rank : Str → Nat) : FreshProbes tripleFS (mkRun rank) := by
  intro k l d _
  simp only [tripleFS, mkFS, mkRun, List.find?, sigName]
  by_cases hd : d = 1
  · subst hd; simp
  · simp [hd]

/-- C1, witness of the amended statement on the three aliases, `A = /home/u` and
`B = /mnt/a`, iterated in stored order. -/
theorem Find_alias_collapse_witness :
    ∃ res, Find tripleEnv tripleFS (mkRun fun _ => 0) sigName [] 0 = some res ∧
      ¬ (inGroup res.1 uuid1 "/home/u".toList ∧ inGroup res.1 uuid1 "/mnt/a".toList) ∧
      ∃ P, inGroup res.1 uuid1 P ∧ sameDir tripleFS P "/home/u".toList = true ∧
        ∀ P1, inGroup res.1 uuid1 P1 → sameDir tripleFS P1 "/home/u".toList = true →
          P1 = P :=
  Find_alias_collapse tripleEnv tripleFS (mkRun fun _ => 0) sigName [] 0
    ["/home/u".toList, "/mnt/a".toList, "/mnt/b".toList]
    "/home/u".toList "/mnt/a".toList uuid1
    (by decide) (FreshProbes_triple _) (by decide) (by decide) (by decide) (by decide)
    (by decide) (by decide)

theorem FreshProbes_scenario (rank : Str → Nat) : FreshProbes scenarioFS (mkRun rank) := by
  intro k l d _
  simp only [scenarioFS, mkFS, mkRun, List.find?, sigName]
  by_cases h2 : d = 2
  · subst h2; simp
  · by_cases h4 : d = 4
    · subst h4; simp
    · simp [h2, h4]

/-- C2, counterexample.  First input: `/home/u/project-a` and
`/mnt/backup/project-a` are the two members of a bucket, at distinct physical
locations; `/mnt/backup/project-a` holds a stale file `.goannex123`, the name the
probe made for `/home/u/project-a` receives.  `Find` removes
`/mnt/backup/project-a`, which is no alias of any member.  Second input: the same
two directories and `/mnt/bind/project-a`, an alias of `/home/u/project-a` that is
iterated first; `/home/u/project-a` is missing from the result although it and
`/mnt/backup/project-a` are at distinct physical locations. -/
theorem distinct_location_member_removed :
    (buckets scenarioEnv staleFS (mkRun fun _ => 0) sigName
          ["/home/u".toList, "/home/u/project-a".toList, "/mnt/backup".toList,
           "/mnt/backup/project-a".toList] =
        [(⟨uuid1, []⟩, ["/home/u/project-a".toList, "/mnt/backup/project-a".toList])] ∧
      sameDir staleFS "/home/u/project-a".toList "/mnt/backup/project-a".toList = false ∧
      ReadFile staleFS (pathJoin "/mnt/backup/project-a".toList ".goannex123".toList) =
        some [] ∧
      (Find scenarioEnv staleFS (mkRun fun _ => 0) sigName [] 1).map
          (fun res => res.1 uuid1) = some (some ["/home/u/project-a".toList])) ∧
    (sameDir bindFS "/home/u/project-a".toList "/mnt/backup/project-a".toList = false ∧
      sameDir bindFS "/mnt/bind/project-a".toList "/home/u/project-a".toList = true ∧
      (Find bindEnv bindFS
          (mkRun fun p => if p = "/mnt/bind/project-a".toList then 0 else 1)
          sigName [] 1).map (fun res => res.1 uuid1) =
        some (some ["/mnt/backup/project-a".toList, "/mnt/bind/project-a".toList])) := by
  decide

/-- C2, amended: probe names being new (no directory already holds an entry with
the name of a probe), `Find` returns, and in every bucket of its alias loop
(i) a member `Q` that is missing from the result for the bucket's identifier is
in the same physical directory as another member `P` that is in the result,
(ii) a member that shares its physical directory with no other member is in the
result, whether or not a probe could be created anywhere, and (iii) in
particular two members at distinct physical locations are both in the result
when no other member of the bucket is an alias of either. -/
theorem Find_removes_only_aliases (env : Env) (fs : FS) (run : Run)
    (filename dirHint : Str) (depth : Nat) (m : List Str)
    (hm : searchLocations env fs dirHint depth = some m)
    (hfresh : FreshProbes fs run) :
    ∃ res, Find env fs run filename dirHint depth = some res ∧
      ∀ s j, (s, j) ∈ buckets env fs run filename m →
        (∀ Q ∈ j, ¬ inGroup res.1 s.UUID Q →
          ∃ P, P ∈ j ∧ inGroup res.1 s.UUID P ∧ P ≠ Q ∧ sameDir fs P Q = true) ∧
        (∀ P ∈ j, (∀ Q ∈ j, Q ≠ P → sameDir fs Q P = false) → inGroup res.1 s.UUID P) ∧
        (∀ P ∈ j, ∀ Q ∈ j, sameDir fs P Q = false →
          (∀ R ∈ j, R ≠ P → R ≠ Q → sameDir fs R P = false ∧ sameDir fs R Q = false) →
          inGroup res.1 s.UUID P ∧ inGroup res.1 s.UUID Q) := by
  refine ⟨_, Find_eq env fs run filename dirHint depth m hm, ?_⟩
  intro s j hj
  have hgl := (findFrom_eq env fs run hfresh filename m).2.1 _ hj
  simp only at hgl
  have hin : ∀ P, inGroup (findFrom env fs run filename m).1 s.UUID P ↔
      P ∈ collapseAll fs (orderBy run.keyOrder j) j := by
    intro P
    unfold inGroup
    rw [hgl]
    simp
  have hkeep : ∀ P ∈ j, (∀ Q ∈ j, Q ≠ P → sameDir fs Q P = false) →
      inGroup (findFrom env fs run filename m).1 s.UUID P := by
    intro P hP hiso
    exact (hin P).2 (collapseAll_keeps_isolated fs _ j P hP hiso)
  refine ⟨?_, hkeep, ?_⟩
  · intro Q hQ hn
    obtain ⟨P, hP, hPQ, hs, _⟩ :=
      collapseAll_removed fs (orderBy run.keyOrder j) j Q hQ (fun h => hn ((hin Q).2 h))
    exact ⟨P, collapseAll_subset fs _ j P hP, (hin P).2 hP, hPQ, hs⟩
  · intro P hP Q hQ hs hothers
    constructor
    · apply hkeep P hP
      intro x hx hne
      by_cases hxQ : x = Q
      · rw [hxQ, sameDir_comm]; exact hs
      · exact (hothers x hx hne hxQ).1
    · apply hkeep Q hQ
      intro x hx hne
      by_cases hxP : x = P
      · rw [hxP]; exact hs
      · exact (hothers x hx hxP hne).2

/-- C2, witness: the scenario of the specification, where `/home/u/project-a` and
`/mnt/backup/project-a` carry the same signature at distinct physical
locations. -/
theorem Find_removes_only_aliases_witness :
    ∃ res, Find scenarioEnv scenarioFS (mkRun fun _ => 0) sigName [] 1 = some res ∧
      ∀ s j, (s, j) ∈ buckets scenarioEnv scenarioFS (mkRun fun _ => 0) sigName
          ["/home/u".toList, "/home/u/project-a".toList, "/mnt/backup".toList,
           "/mnt/backup/project-a".toList] →
        (∀ Q ∈ j, ¬ inGroup res.1 s.UUID Q →
          ∃ P, P ∈ j ∧ inGroup res.1 s.UUID P ∧ P ≠ Q ∧ sameDir scenarioFS P Q = true) ∧
        (∀ P ∈ j, (∀ Q ∈ j, Q ≠ P → sameDir scenarioFS Q P = false) →
          inGroup res.1 s.UUID P) ∧
        (∀ P ∈ j, ∀ Q ∈ j, sameDir scenarioFS P Q = false →
          (∀ R ∈ j, R ≠ P → R ≠ Q →
            sameDir scenarioFS R P = false ∧ sameDir scenarioFS R Q = false) →
          inGroup res.1 s.UUID P ∧ inGroup res.1 s.UUID Q) :=
  Find_removes_only_aliases scenarioEnv scenarioFS (mkRun fun _ => 0) sigName [] 1 _
    (by decide) (FreshProbes_scenario _)

/-- The scenario of the specification evaluates to the mapping the
specification gives. -/
theorem Find_scenario :
    (Find scenarioEnv scenarioFS (mkRun fun _ => 0) sigName [] 1).map
        (fun res => res.1 uuid1) =
      some (some ["/home/u/project-a".toList, "/mnt/backup/project-a".toList]) ∧
    buckets scenarioEnv scenarioFS (mkRun fun _ => 0) sigName
        ["/home/u".toList, "/home/u/project-a".toList, "/mnt/backup".toList,
         "/mnt/backup/project-a".toList] =
      [(⟨uuid1, []⟩, ["/home/u/project-a".toList, "/mnt/backup/project-a".toList])] := by
  decide

/-- The scenario with read-only directories: probe creation fails for both
members and both stay in the result. -/
theorem Find_scenario_read_only :
    canProbe scenarioReadOnlyFS "/home/u/project-a".toList = false ∧
    canProbe scenarioReadOnlyFS "/mnt/backup/project-a".toList = false ∧
    (Find scenarioEnv scenarioReadOnlyFS (mkRun fun _ => 0) sigName [] 1).map
        (fun res => res.1 uuid1) =
      some (some ["/home/u/project-a".toList, "/mnt/backup/project-a".toList]) := by
  decide

/-! ## Completeness of the groups (C3) -/

theorem findFrom_inGroup (env : Env) (fs : FS) (run : Run) (hf : FreshProbes fs run)
    (filename : Str) (m : List Str) (u p : Str) :
    inGroup (findFrom env fs run filename m).1 u p ↔
      ∃ j, ((⟨u, []⟩ : Signature), j) ∈ buckets env fs run filename m ∧
        p ∈ collapseAll fs (orderBy run.keyOrder j) j := by
  obtain ⟨_, h2, h3⟩ := findFrom_eq env fs run hf filename m
  constructor
  · rintro ⟨l, hl, hp⟩
    by_cases h : ∃ g, g ∈ buckets env fs run filename m ∧ g.1.UUID = u
    · obtain ⟨⟨s, j⟩, hg, hgu⟩ := h
      have hfn := ((buckets_ok env fs run filename m).2 _ hg).1
      have hs : s = ⟨u, []⟩ := by
        cases s
        simp only at hgu hfn
        subst hgu hfn
        rfl
      subst hs
      have := h2 _ hg
      simp only at this
      rw [this] at hl
      cases hl
      exact ⟨j, hg, hp⟩
    · rw [h3 u (fun g hg hgu => h ⟨g, hg, hgu⟩)] at hl
      exact absurd hl (by simp)
  · rintro ⟨j, hj, hp⟩
    exact ⟨_, h2 _ hj, hp⟩

/-- A recorded path is in the result or has an alias there. -/
theorem findFrom_complete (env : Env) (fs : FS) (run : Run) (hf : FreshProbes fs run)
    (filename : Str) (m : List Str) (u p : Str)
    (hp : member (buckets env fs run filename m) ⟨u, []⟩ p) :
    inGroup (findFrom env fs run filename m).1 u p ∨
      ∃ q, inGroup (findFrom env fs run filename m).1 u q ∧ q ≠ p ∧
        sameDir fs q p = true := by
  obtain ⟨j, hj, hpj⟩ := hp
  by_cases h : p ∈ collapseAll fs (orderBy run.keyOrder j) j
  · exact Or.inl ((findFrom_inGroup env fs run hf filename m u p).2 ⟨j, hj, h⟩)
  · obtain ⟨P, hP, hne, hs, _⟩ := collapseAll_removed fs _ j p hpj h
    exact Or.inr ⟨P, (findFrom_inGroup env fs run hf filename m u P).2 ⟨j, hj, hP⟩, hne, hs⟩

/-- For paths free of the escape `\040`: a visited path whose signature reads as
`u` is in the result for `u` or has an alias there (probe names being new). -/
theorem Find_complete_unescaped (env : Env) (fs : FS) (run : Run)
    (filename dirHint : Str) (depth : Nat) (m : List Str) (p u : Str)
    (hm : searchLocations env fs dirHint depth = some m)
    (hfresh : FreshProbes fs run)
    (hp : p ∈ m) (hexp : hackExpandStringEscape p = p)
    (hu : ReadSignature env fs p filename = some ⟨u, []⟩) :
    ∃ res, Find env fs run filename dirHint depth = some res ∧
      (inGroup res.1 u p ∨ ∃ q, inGroup res.1 u q ∧ q ≠ p ∧ sameDir fs q p = true) :=
  ⟨_, Find_eq env fs run filename dirHint depth m hm,
    findFrom_complete env fs run hfresh filename m u p
      ((member_buckets env fs run filename m ⟨u, []⟩ p).2 ⟨p, hp, hexp.symm, hu⟩)⟩

/-- C3, the code at the failing input: the walk emits `/mnt/usb/a\040b`, whose
signature file reads as the valid identifier `uuid1`, yet `Find` returns no list
at all for `uuid1`: it looks for the signature in `/mnt/usb/a b`. -/
theorem Find_drops_escaped_name :
    searchLocations escapeEnv escapeFS [] 1 =
        some ["/home/u".toList, "/mnt/usb".toList, "/mnt/usb/a\\040b".toList] ∧
      ReadSignature escapeEnv escapeFS "/mnt/usb/a\\040b".toList sigName =
        some ⟨uuid1, []⟩ ∧
      hackExpandStringEscape "/mnt/usb/a\\040b".toList = "/mnt/usb/a b".toList ∧
      ReadSignature escapeEnv escapeFS "/mnt/usb/a b".toList sigName = none ∧
      (Find escapeEnv escapeFS (mkRun fun _ => 0) sigName [] 1).map
        (fun res => res.1 uuid1) = some none := by
  decide

/-! ## The tree walk (C4, C5) -/

/-- Every path sent by `r(i, d)` is `i` followed by at most `d` names of listed
directories, all equal to the hint when a hint is set. -/
theorem r_paths (fs : FS) (dirHint : Str) :
    ∀ (d : Nat) (i p : Str), p ∈ r fs dirHint d i →
      ∃ segs : List Str, segs.length ≤ d ∧ p = segs.foldl childPath i ∧
        ∀ seg ∈ segs, listedDir fs seg ∧ (dirHint ≠ [] → seg = dirHint) := by
  intro d
  induction d with
  | zero =>
    intro i p hp
    simp only [r, List.mem_singleton] at hp
    exact ⟨[], by simp, by simpa using hp, by simp⟩
  | succ d ih =>
    intro i p hp
    rw [r, List.mem_cons] at hp
    rcases hp with hp | hp
    · exact ⟨[], by simp, by simpa using hp, by simp⟩
    · cases hrd : ReadDir fs i with
      | none => rw [hrd] at hp; exact absurd hp (List.not_mem_nil p)
      | some files =>
        rw [hrd] at hp
        simp only [List.mem_flatMap] at hp
        obtain ⟨f, hf, hp⟩ := hp
        cases hdir : f.IsDir with
        | false => simp [hdir] at hp
        | true =>
          simp only [hdir, if_true] at hp
          by_cases hh : dirHint ≠ [] ∧ f.Name ≠ dirHint
          · rw [if_pos hh] at hp; exact absurd hp (List.not_mem_nil p)
          · rw [if_neg hh] at hp
            obtain ⟨segs, hlen, hpe, hall⟩ := ih _ p hp
            refine ⟨f.Name :: segs, by simpa using hlen, by simpa using hpe, ?_⟩
            intro seg hseg
            rcases List.mem_cons.1 hseg with h | h
            · subst h
              refine ⟨⟨i, files, f, hrd, hf, hdir, rfl⟩, ?_⟩
              intro hne
              by_contra hc
              exact hh ⟨hne, hc⟩
            · exact hall seg h

theorem r_self (fs : FS) (dirHint : Str) (d : Nat) (i : Str) : i ∈ r fs dirHint d i := by
  cases d <;> simp [r]

theorem r_zero (fs : FS) (dirHint : Str) (i : Str) : r fs dirHint 0 i = [i] := rfl

theorem searchLocations_eq (env : Env) (fs : FS) (dirHint : Str) (depth : Nat)
    (m : List Str) (h : searchLocations env fs dirHint depth = some m) :
    ∃ ms, enumerateMountpoints env = some ms ∧
      m = recurseSubdirectories fs (searchRoots env ms) dirHint depth := by
  unfold searchLocations at h
  cases hms : enumerateMountpoints env with
  | none => rw [hms] at h; exact absurd h (by simp)
  | some ms =>
    rw [hms] at h
    simp only [Option.some.injEq] at h
    exact ⟨ms, rfl, h.symm⟩

/-- C4, counterexample: the mount table yields the root `/mnt/my\040disk`; with
depth 0 `recurseSubdirectories` emits `/mnt/my disk`, which is none of the roots
and does not begin with one. -/
theorem depth_zero_emits_expanded_root :
    enumerateMountpoints spaceEnv = some ["/mnt/my\\040disk".toList] ∧
      recurseSubdirectories spaceFS ["/mnt/my\\040disk".toList] [] 0 =
        ["/mnt/my disk".toList] ∧
      recurseSubdirectories spaceFS ["/mnt/my\\040disk".toList] [] 0 ≠
        ["/mnt/my\\040disk".toList] ∧
      ¬ ("/mnt/my\\040disk".toList <+: "/mnt/my disk".toList) := by
  decide

/-! ### The replacement and path segments -/

theorem hackExpand_cons_ne (c : Char) (l : Str) (hc : c ≠ '\\') :
    hackExpandStringEscape (c :: l) = c :: hackExpandStringEscape l :=
  hackExpandStringEscape.eq_2 c l (fun _ h _ => hc h)

theorem hackExpand_eq_nil (l : Str) (h : hackExpandStringEscape l = []) : l = [] := by
  induction l using hackExpandStringEscape.induct with
  | case1 rest _ => rw [hackExpandStringEscape.eq_1] at h; exact absurd h (by simp)
  | case2 c rest hno _ => rw [hackExpandStringEscape.eq_2 c rest hno] at h; exact absurd h (by simp)
  | case3 => rfl

/-- The replacement works on both sides of a slash separately. -/
theorem hackExpand_append_slash (b : Str) :
    ∀ a : Str, hackExpandStringEscape (a ++ '/' :: b) =
      hackExpandStringEscape a ++ '/' :: hackExpandStringEscape b := by
  intro a
  induction a using hackExpandStringEscape.induct with
  | case1 rest ih =>
    simp only [List.cons_append, hackExpandStringEscape.eq_1, ih]
  | case2 c rest hno ih =>
    rw [List.cons_append, hackExpandStringEscape.eq_2 c rest hno,
      hackExpandStringEscape.eq_2 c (rest ++ '/' :: b), ih, List.cons_append]
    intro r1 hc h
    cases rest with
    | nil => simp at h
    | cons x1 rest1 =>
      cases rest1 with
      | nil => simp at h
      | cons x2 rest2 =>
        cases rest2 with
        | nil => simp at h
        | cons x3 rest3 =>
          simp only [List.cons_append, List.cons.injEq] at h
          obtain ⟨h1, h2, h3, _⟩ := h
          subst h1 h2 h3
          exact hno rest3 hc rfl
  | case3 => exact hackExpand_cons_ne '/' b (by decide)

theorem hackExpand_head (x : Char) (hx : x ≠ ' ') (t : Str) :
    ∀ l : Str, hackExpandStringEscape l = x :: t →
      ∃ l1, l = x :: l1 ∧ t = hackExpandStringEscape l1 := by
  intro l
  induction l using hackExpandStringEscape.induct with
  | case1 rest _ =>
    intro h
    rw [hackExpandStringEscape.eq_1] at h
    simp only [List.cons.injEq] at h
    exact absurd h.1.symm hx
  | case2 c rest hno _ =>
    intro h
    rw [hackExpandStringEscape.eq_2 c rest hno] at h
    simp only [List.cons.injEq] at h
    exact ⟨rest, by rw [h.1], h.2.symm⟩
  | case3 => intro h; rw [hackExpandStringEscape.eq_3] at h; exact absurd h (by simp)

/-- Replacing twice is replacing once. -/
theorem hackExpand_idem :
    ∀ a : Str, hackExpandStringEscape (hackExpandStringEscape a) =
      hackExpandStringEscape a := by
  intro a
  induction a using hackExpandStringEscape.induct with
  | case1 rest ih =>
    rw [hackExpandStringEscape.eq_1, hackExpand_cons_ne ' ' _ (by decide), ih]
  | case2 c rest hno ih =>
    rw [hackExpandStringEscape.eq_2 c rest hno,
      hackExpandStringEscape.eq_2 c (hackExpandStringEscape rest), ih]
    intro r1 hc h
    obtain ⟨l1, h1, h1t⟩ := hackExpand_head '0' (by decide) _ rest h
    obtain ⟨l2, h2, h2t⟩ := hackExpand_head '4' (by decide) _ l1 h1t.symm
    obtain ⟨l3, h3, _⟩ := hackExpand_head '0' (by decide) _ l2 h2t.symm
    exact hno l3 hc (by rw [h1, h2, h3])
  | case3 => rfl

theorem mem_hackExpand (x : Char) :
    ∀ l : Str, x ∈ hackExpandStringEscape l → x ∈ l ∨ x = ' ' := by
  intro l
  induction l using hackExpandStringEscape.induct with
  | case1 rest ih =>
    intro h
    rw [hackExpandStringEscape.eq_1] at h
    rcases List.mem_cons.1 h with h1 | h1
    · exact Or.inr h1
    · rcases ih h1 with h2 | h2
      · exact Or.inl (by simp [h2])
      · exact Or.inr h2
  | case2 c rest hno ih =>
    intro h
    rw [hackExpandStringEscape.eq_2 c rest hno] at h
    rcases List.mem_cons.1 h with h1 | h1
    · exact Or.inl (by simp [h1])
    · rcases ih h1 with h2 | h2
      · exact Or.inl (List.mem_cons_of_mem _ h2)
      · exact Or.inr h2
  | case3 => intro h; rw [hackExpandStringEscape.eq_3] at h; exact absurd h (List.not_mem_nil x)

theorem hackExpand_last_slash :
    ∀ a : Str, (hackExpandStringEscape a).getLast? = some '/' → a.getLast? = some '/' := by
  intro a
  induction a using hackExpandStringEscape.induct with
  | case1 rest ih =>
    intro h
    rw [hackExpandStringEscape.eq_1, List.getLast?_cons] at h
    cases hl : (hackExpandStringEscape rest).getLast? with
    | none => rw [hl] at h; exact absurd h (by decide)
    | some x =>
      rw [hl] at h
      simp only [Option.getD_some, Option.some.injEq] at h
      subst h
      simp [List.getLast?_cons, ih hl]
  | case2 c rest hno ih =>
    intro h
    rw [hackExpandStringEscape.eq_2 c rest hno, List.getLast?_cons] at h
    cases hl : (hackExpandStringEscape rest).getLast? with
    | none =>
      rw [hl] at h
      simp only [Option.getD_none, Option.some.injEq] at h
      have hnil := hackExpand_eq_nil rest (List.getLast?_eq_none_iff.1 hl)
      subst h hnil
      rfl
    | some x =>
      rw [hl] at h
      simp only [Option.getD_some, Option.some.injEq] at h
      subst h
      simp [List.getLast?_cons, ih hl]
  | case3 => intro h; rw [hackExpandStringEscape.eq_3] at h; exact absurd h (by simp)

/-- The replacement applied to a child path is the child path of the replaced
parent and the replaced name. -/
theorem hackExpand_childPath (a n : Str) :
    hackExpandStringEscape (childPath a n) =
      childPath (hackExpandStringEscape a) (hackExpandStringEscape n) := by
  by_cases h : a.getLast? = some '/'
  · obtain ⟨ys, hys⟩ := List.getLast?_eq_some_iff.1 h
    have hexp : hackExpandStringEscape a = hackExpandStringEscape ys ++ ['/'] := by
      rw [hys, hackExpand_append_slash [] ys]
      rfl
    have hlast : (hackExpandStringEscape a).getLast? = some '/' := by
      rw [hexp, List.getLast?_concat]
    unfold childPath
    rw [if_pos h, if_pos hlast, hexp, hys, List.append_assoc, List.singleton_append,
      hackExpand_append_slash n ys, List.append_assoc, List.singleton_append]
  · have hlast : ¬ (hackExpandStringEscape a).getLast? = some '/' :=
      fun hl => h (hackExpand_last_slash a hl)
    unfold childPath
    rw [if_neg h, if_neg hlast, hackExpand_append_slash n a]

theorem hackExpand_foldl_childPath :
    ∀ (segs : List Str) (a : Str),
      hackExpandStringEscape (segs.foldl childPath a) =
        (segs.map hackExpandStringEscape).foldl childPath (hackExpandStringEscape a) := by
  intro segs
  induction segs with
  | nil => intro a; rfl
  | cons n segs ih =>
    intro a
    rw [List.foldl_cons, ih, hackExpand_childPath, List.map_cons, List.foldl_cons]

/-- C4, amended: every path emitted by `recurseSubdirectories` is a root with
every `\040` replaced by a space, followed by at most `d` further segments, each
the name of a listed directory; for `d = 0` the emitted paths are exactly the
roots after that replacement; and when no listed directory name contains a
slash, every path in the output of `Find` is a search root with every `\040`
replaced by a space, followed by at most `d` further segments, none of which
contains a slash. -/
theorem recurseSubdirectories_depth (fs : FS) (roots : List Str) (dirHint : Str) (d : Nat) :
    (∀ p ∈ recurseSubdirectories fs roots dirHint d,
      ∃ root ∈ roots, ∃ segs : List Str, segs.length ≤ d ∧
        p = segs.foldl childPath (hackExpandStringEscape root) ∧
        ∀ seg ∈ segs, listedDir fs seg) ∧
    recurseSubdirectories fs roots dirHint 0 = roots.map hackExpandStringEscape ∧
    ((∀ seg, listedDir fs seg → '/' ∉ seg) →
      ∀ (env : Env) (run : Run) (filename : Str) (ms : List Str) res u q,
        enumerateMountpoints env = some ms →
        Find env fs run filename dirHint d = some res → inGroup res.1 u q →
        ∃ root ∈ searchRoots env ms, ∃ segs : List Str, segs.length ≤ d ∧
          q = segs.foldl childPath (hackExpandStringEscape root) ∧
          ∀ seg ∈ segs, '/' ∉ seg) := by
  have h1 : ∀ (roots : List Str), ∀ p ∈ recurseSubdirectories fs roots dirHint d,
      ∃ root ∈ roots, ∃ segs : List Str, segs.length ≤ d ∧
        p = segs.foldl childPath (hackExpandStringEscape root) ∧
        ∀ seg ∈ segs, listedDir fs seg := by
    intro roots p hp
    simp only [recurseSubdirectories, List.mem_flatMap] at hp
    obtain ⟨root, hroot, hp⟩ := hp
    obtain ⟨segs, hlen, hpe, hall⟩ := r_paths fs dirHint d _ p hp
    exact ⟨root, hroot, segs, hlen, hpe, fun seg hs => (hall seg hs).1⟩
  refine ⟨h1 roots, ?_, ?_⟩
  · induction roots with
    | nil => rfl
    | cons a l ih =>
      simp only [recurseSubdirectories, List.flatMap_cons, r_zero, List.map_cons,
        List.singleton_append, List.cons.injEq, true_and] at ih ⊢
      exact ih
  · intro hnames env run filename ms res u q hms hfind hq
    have hsl : searchLocations env fs dirHint d =
        some (recurseSubdirectories fs (searchRoots env ms) dirHint d) := by
      simp [searchLocations, hms]
    rw [Find_eq env fs run filename dirHint d _ hsl] at hfind
    cases hfind
    obtain ⟨_, i, hi, hqi, _⟩ := findFrom_sound env fs run filename _ u q hq
    obtain ⟨root, hroot, segs, hlen, hpe, hlisted⟩ := h1 _ i hi
    refine ⟨root, hroot, segs.map hackExpandStringEscape, by simpa using hlen, ?_, ?_⟩
    · rw [hqi, hpe, hackExpand_foldl_childPath, hackExpand_idem]
    · intro seg hseg hslash
      obtain ⟨seg0, hseg0, rfl⟩ := List.mem_map.1 hseg
      rcases mem_hackExpand '/' seg0 hslash with h | h
      · exact hnames seg0 (hlisted seg0 hseg0) h
      · exact absurd h (by decide)

theorem scenario_names_no_slash : ∀ seg, listedDir scenarioFS seg → '/' ∉ seg := by
  rintro seg ⟨dir, files, f, hread, hf, _, hname⟩
  have hfiles : ∀ f ∈ files, f.Name = "project-a".toList ∨ f.Name = "notes.txt".toList := by
    unfold ReadDir at hread
    split at hread
    · exact absurd hread (by simp)
    · simp only [scenarioFS, mkFS, List.lookup] at hread
      by_cases h1 : dir = "/home/u".toList
      · subst h1
        simp only [beq_self_eq_true, Option.some.injEq] at hread
        subst hread
        intro f hf
        simp only [List.mem_cons, List.mem_singleton, List.not_mem_nil, or_false] at hf
        rcases hf with h | h <;> subst h <;> simp
      · have h1b : (dir == "/home/u".toList) = false := by simpa using h1
        by_cases h2 : dir = "/mnt/backup".toList
        · subst h2
          simp only [h1b, beq_self_eq_true, Option.some.injEq] at hread
          subst hread
          intro f hf
          simp only [List.mem_singleton] at hf
          subst hf
          simp
        · have h2b : (dir == "/mnt/backup".toList) = false := by simpa using h2
          simp only [h1b, h2b] at hread
          split at hread
          · simp only [Option.some.injEq] at hread
            subst hread
            intro f hf
            exact absurd hf (List.not_mem_nil f)
          · exact absurd hread (by simp)
  rcases hfiles f hf with h | h <;> rw [← hname, h] <;> decide

/-- C4, witness: the scenario file system, whose listed names contain no slash,
walked from its two roots to depth 1. -/
theorem recurseSubdirectories_depth_witness :
    (∀ p ∈ recurseSubdirectories scenarioFS ["/home/u".toList, "/mnt/backup".toList] [] 1,
      ∃ root ∈ ["/home/u".toList, "/mnt/backup".toList], ∃ segs : List Str,
        segs.length ≤ 1 ∧ p = segs.foldl childPath (hackExpandStringEscape root) ∧
        ∀ seg ∈ segs, listedDir scenarioFS seg) ∧
    recurseSubdirectories scenarioFS ["/home/u".toList, "/mnt/backup".toList] [] 0 =
      ["/home/u".toList, "/mnt/backup".toList].map hackExpandStringEscape ∧
    (∀ (env : Env) (run : Run) (filename : Str) (ms : List Str) res u q,
      enumerateMountpoints env = some ms →
      Find env scenarioFS run filename [] 1 = some res → inGroup res.1 u q →
      ∃ root ∈ searchRoots env ms, ∃ segs : List Str, segs.length ≤ 1 ∧
        q = segs.foldl childPath (hackExpandStringEscape root) ∧
        ∀ seg ∈ segs, '/' ∉ seg) :=
  ⟨(recurseSubdirectories_depth scenarioFS ["/home/u".toList, "/mnt/backup".toList] [] 1).1,
    (recurseSubdirectories_depth scenarioFS ["/home/u".toList, "/mnt/backup".toList] [] 1).2.1,
    (recurseSubdirectories_depth scenarioFS ["/home/u".toList, "/mnt/backup".toList] [] 1).2.2
      scenario_names_no_slash⟩

/-- C5, counterexample: with the hint `project-a` and depth 1 the supplied root
`/mnt/my\040disk` is not among the emitted paths; `/mnt/my disk` and its child
`project-a` are emitted instead. -/
theorem hint_walk_root_not_emitted :
    recurseSubdirectories spaceFS ["/mnt/my\\040disk".toList] "project-a".toList 1 =
        ["/mnt/my disk".toList, "/mnt/my disk/project-a".toList] ∧
      "/mnt/my\\040disk".toList ∉
        recurseSubdirectories spaceFS ["/mnt/my\\040disk".toList] "project-a".toList 1 := by
  decide

/-- C5, amended: for a non-empty hint `h`, `recurseSubdirectories` emits every
supplied root with every `\040` replaced by a space, and every emitted path is
such a root followed by at most `depth` segments that are all equal to `h`: no
directory with another name is emitted below a root or descended into. -/
theorem recurseSubdirectories_hint (fs : FS) (roots : List Str) (h : Str) (depth : Nat)
    (hh : h ≠ []) :
    (∀ root ∈ roots,
      hackExpandStringEscape root ∈ recurseSubdirectories fs roots h depth) ∧
    (∀ p ∈ recurseSubdirectories fs roots h depth,
      ∃ root ∈ roots, ∃ n, n ≤ depth ∧
        p = (List.replicate n h).foldl childPath (hackExpandStringEscape root)) := by
  constructor
  · intro root hroot
    simp only [recurseSubdirectories, List.mem_flatMap]
    exact ⟨root, hroot, r_self fs h depth _⟩
  · intro p hp
    simp only [recurseSubdirectories, List.mem_flatMap] at hp
    obtain ⟨root, hroot, hp⟩ := hp
    obtain ⟨segs, hlen, hpe, hall⟩ := r_paths fs h depth _ p hp
    refine ⟨root, hroot, segs.length, hlen, ?_⟩
    have : segs = List.replicate segs.length h :=
      List.eq_replicate_iff.2 ⟨rfl, fun seg hs => (hall seg hs).2 hh⟩
    rw [← this]
    exact hpe

/-- C5, witness: the scenario file system walked from its two roots with the
hint `project-a`. -/
theorem recurseSubdirectories_hint_witness :
    (∀ root ∈ ["/home/u".toList, "/mnt/backup".toList],
      hackExpandStringEscape root ∈
        recurseSubdirectories scenarioFS ["/home/u".toList, "/mnt/backup".toList]
          "project-a".toList 1) ∧
    (∀ p ∈ recurseSubdirectories scenarioFS ["/home/u".toList, "/mnt/backup".toList]
        "project-a".toList 1,
      ∃ root ∈ ["/home/u".toList, "/mnt/backup".toList], ∃ n, n ≤ 1 ∧
        p = (List.replicate n "project-a".toList).foldl childPath
          (hackExpandStringEscape root)) :=
  recurseSubdirectories_hint scenarioFS ["/home/u".toList, "/mnt/backup".toList]
    "project-a".toList 1 (by decide)

/-! ## The mount table (C6) -/

theorem readStrings_no_newline :
    ∀ (l acc : Str), '\n' ∉ l → readStrings acc l = [] := by
  intro l
  induction l with
  | nil => intro acc _; rfl
  | cons c cs ih =>
    intro acc h
    have hc : c ≠ '\n' := fun hc => h (hc ▸ List.mem_cons_self _ _)
    rw [readStrings, if_neg hc]
    exact ih _ (fun h1 => h (List.mem_cons_of_mem _ h1))

theorem readStrings_line :
    ∀ (l acc rest : Str), '\n' ∉ l →
      readStrings acc (l ++ '\n' :: rest) = (acc ++ l ++ ['\n']) :: readStrings [] rest := by
  intro l
  induction l with
  | nil => intro acc rest _; simp [readStrings]
  | cons c cs ih =>
    intro acc rest h
    have hc : c ≠ '\n' := fun hc => h (hc ▸ List.mem_cons_self _ _)
    rw [List.cons_append, readStrings, if_neg hc,
      ih _ rest (fun h1 => h (List.mem_cons_of_mem _ h1))]
    simp

theorem dropWhile_append_stop (p : Char → Bool) (c : Char) (hc : p c = false) :
    ∀ (a X : Str), (a ++ c :: X).dropWhile p = a.dropWhile p ++ c :: X := by
  intro a
  induction a with
  | nil => intro X; simp [List.dropWhile, hc]
  | cons x a ih =>
    intro X
    cases hx : p x with
    | true => simp [List.dropWhile, hx, ih]
    | false => simp [List.dropWhile, hx]

theorem rdropWhile_append_stop (p : Char → Bool) (c : Char) (hc : p c = false)
    (A B : Str) : (A ++ c :: B).rdropWhile p = A ++ c :: B.rdropWhile p := by
  unfold List.rdropWhile
  rw [List.reverse_append, List.reverse_cons, List.append_assoc, List.singleton_append,
    dropWhile_append_stop p c hc]
  simp

theorem SplitN_field (n : Nat) :
    ∀ (a X : Str), ' ' ∉ a → SplitN (n + 2) (a ++ ' ' :: X) = a :: SplitN (n + 1) X := by
  intro a X ha
  have hspan : ∀ (a : Str), ' ' ∉ a →
      (a ++ ' ' :: X).span (fun c => c != ' ') = (a, ' ' :: X) := by
    intro a
    induction a with
    | nil => intro _; simp [List.span_eq_take_drop, List.takeWhile, List.dropWhile]
    | cons x a ih =>
      intro h
      have hx : x ≠ ' ' := fun hx => h (hx ▸ List.mem_cons_self _ _)
      have := ih (fun h1 => h (List.mem_cons_of_mem _ h1))
      have hx1 : (x != ' ') = true := by simpa using hx
      simp only [List.span_eq_take_drop, Prod.mk.injEq] at this ⊢
      simp [List.takeWhile, List.dropWhile, hx1, this.1, this.2]
  rw [SplitN, hspan a ha]

theorem not_mem_dropWhile (p : Char → Bool) (c : Char) (a : Str) (h : c ∉ a) :
    c ∉ a.dropWhile p :=
  fun hc => h ((List.dropWhile_suffix p).subset hc)

theorem SplitN_last (n : Nat) (a : Str) (ha : ' ' ∉ a) : SplitN (n + 2) a = [a] := by
  have hspan : ∀ (a : Str), ' ' ∉ a → a.span (fun c => c != ' ') = (a, []) := by
    intro a
    induction a with
    | nil => intro _; rfl
    | cons x a ih =>
      intro h
      have hx : x ≠ ' ' := fun hx => h (hx ▸ List.mem_cons_self _ _)
      have hx1 : (x != ' ') = true := by simpa using hx
      have := ih (fun h1 => h (List.mem_cons_of_mem _ h1))
      simp only [List.span_eq_take_drop, Prod.mk.injEq] at this ⊢
      simp [List.takeWhile, List.dropWhile, hx1, this.1, this.2]
  rw [SplitN, hspan a ha]

theorem rdropWhile_field (p : Char → Bool) (t : Str) (c : Char) (hc : p c = true)
    (ht : ∀ x ∈ t, p x = false) : (t ++ [c]).rdropWhile p = t := by
  rw [List.rdropWhile_concat_pos _ _ _ hc, List.rdropWhile_eq_self_iff]
  intro hl
  rw [ht _ (List.getLast_mem hl)]
  simp

/-- One turn of the loop on the line of a well-formed entry. -/
theorem mountLine_record (e : MountRecord) (he : e.wellFormed) :
    mountLine (e.line ++ ['\n']) =
      if e.fstype ∈ ignoreFilesystems then some none else some (some e.path) := by
  obtain ⟨⟨hd, _⟩, ⟨hp, _⟩, ⟨ht, htn, htr⟩, _⟩ := he
  have hsp : (fun c => decide (c ∈ ['\r', '\n'])) ' ' = false := by decide
  cases hr : e.rest with
  | some rest =>
    have htrim : Trim (e.line ++ ['\n']) ['\r', '\n'] =
        e.device.dropWhile (fun c => decide (c ∈ ['\r', '\n'])) ++ ' ' :: (e.path ++ ' ' ::
          (e.fstype ++ ' ' ::
            (rest ++ ['\n']).rdropWhile (fun c => decide (c ∈ ['\r', '\n'])))) := by
      unfold Trim MountRecord.line
      rw [hr]
      simp only
      rw [List.append_assoc, List.cons_append, dropWhile_append_stop _ ' ' hsp,
        rdropWhile_append_stop _ ' ' hsp, List.append_assoc, List.cons_append,
        rdropWhile_append_stop _ ' ' hsp, List.append_assoc, List.cons_append,
        rdropWhile_append_stop _ ' ' hsp]
    unfold mountLine
    simp only
    rw [htrim, SplitN_field 2 _ _ (not_mem_dropWhile _ _ _ hd), SplitN_field 1 _ _ hp,
      SplitN_field 0 _ _ ht]
    simp only [List.get?_cons_succ, List.get?_cons_zero]
    split <;> rfl
  | none =>
    have hfield : ∀ x ∈ e.fstype, (fun c => decide (c ∈ ['\r', '\n'])) x = false := by
      intro x hx
      have h1 : x ≠ '\r' := fun h => htr (h ▸ hx)
      have h2 : x ≠ '\n' := fun h => htn (h ▸ hx)
      simp [h1, h2]
    have htrim : Trim (e.line ++ ['\n']) ['\r', '\n'] =
        e.device.dropWhile (fun c => decide (c ∈ ['\r', '\n'])) ++ ' ' :: (e.path ++ ' ' ::
          e.fstype) := by
      unfold Trim MountRecord.line
      rw [hr]
      simp only [List.append_nil]
      rw [List.append_assoc, List.cons_append, dropWhile_append_stop _ ' ' hsp,
        rdropWhile_append_stop _ ' ' hsp, List.append_assoc, List.cons_append,
        rdropWhile_append_stop _ ' ' hsp,
        rdropWhile_field _ e.fstype '\n' (by decide) hfield]
    unfold mountLine
    simp only
    rw [htrim, SplitN_field 2 _ _ (not_mem_dropWhile _ _ _ hd), SplitN_field 1 _ _ hp,
      SplitN_last 0 _ ht]
    simp only [List.get?_cons_succ, List.get?_cons_zero]
    split <;> rfl

theorem mountLoop_records :
    ∀ (es : List MountRecord), (∀ e ∈ es, e.wellFormed) →
      mountLoop (es.map (fun e => e.line ++ ['\n'])) =
        some ((es.filter (fun e => decide (e.fstype ∉ ignoreFilesystems))).map
          (fun e => e.path)) := by
  intro es
  induction es with
  | nil => intro _; rfl
  | cons e es ih =>
    intro h
    have ih := ih (fun e1 h1 => h e1 (List.mem_cons_of_mem _ h1))
    rw [List.map_cons, mountLoop, mountLine_record e (h e (List.mem_cons_self _ _))]
    by_cases hi : e.fstype ∈ ignoreFilesystems
    · simp only [if_pos hi]
      rw [ih, List.filter_cons_of_neg (by simpa using hi)]
    · simp only [if_neg hi]
      rw [ih, List.filter_cons_of_pos (by simpa using hi)]
      rfl

theorem line_no_newline (e : MountRecord) (he : e.wellFormed) : '\n' ∉ e.line := by
  obtain ⟨⟨_, hd⟩, ⟨_, hp⟩, ⟨_, ht, _⟩, hr⟩ := he
  unfold MountRecord.line
  cases hrest : e.rest with
  | some rest =>
    simp only [List.mem_append, List.mem_cons, not_or]
    rw [hrest] at hr
    exact ⟨hd, by decide, hp, by decide, ht, by decide, hr⟩
  | none =>
    simp only [List.mem_append, List.mem_cons, not_or, List.append_nil]
    exact ⟨hd, by decide, hp, by decide, ht⟩

theorem readStrings_table :
    ∀ (es : List MountRecord) (last : Str), (∀ e ∈ es, e.wellFormed) → '\n' ∉ last →
      readStrings [] (mountTable es last) = es.map (fun e => e.line ++ ['\n']) := by
  intro es
  induction es with
  | nil => intro last _ hl; simpa [mountTable] using readStrings_no_newline last [] hl
  | cons e es ih =>
    intro last h hl
    have ih := ih last (fun e1 h1 => h e1 (List.mem_cons_of_mem _ h1)) hl
    unfold mountTable at ih ⊢
    rw [List.flatMap_cons, List.append_assoc, List.append_assoc, List.singleton_append,
      readStrings_line _ _ _ (line_no_newline e (h e (List.mem_cons_self _ _))), ih]
    simp

/-- C6, counterexample: a readable mount table whose last entry is not followed
by a newline.  The entry `/dev/sdb1 /mnt/backup ext4` has a type outside the
ignore set, yet only `/` is yielded. -/
theorem enumerateMountpoints_last_entry_dropped :
    enumerateMountpoints
        (envOfMounts
          "/dev/sda1 / ext4 rw 0 0\n/dev/sdb1 /mnt/backup ext4 rw 0 0".toList) =
      some ["/".toList] ∧
    "ext4".toList ∉ ignoreFilesystems := by
  decide

/-- C6, amended: for a mount table whose entries, `device path type` with or
without further fields (device, path and type free of spaces and newlines, the
type also of carriage returns), each stand on a line ended by a newline,
possibly followed by a last line without newline, `enumerateMountpoints` yields, in table order, exactly the mount path of every newline-ended entry
whose type is not in the ignore set, and no path of an entry whose type is in
it; what follows the last newline is not considered. -/
theorem enumerateMountpoints_table (env : Env) (es : List MountRecord) (last : Str)
    (hes : ∀ e ∈ es, e.wellFormed) (hlast : '\n' ∉ last)
    (henv : env.procMounts = some (mountTable es last)) :
    enumerateMountpoints env =
      some ((es.filter (fun e => decide (e.fstype ∉ ignoreFilesystems))).map
        (fun e => e.path)) := by
  unfold enumerateMountpoints
  rw [henv]
  simp only
  rw [readStrings_table es last hes hlast, mountLoop_records es hes]

/-- C6, witness: a table of three entries, the second of an ignored type, the
third without further fields, and an unfinished last line. -/
theorem enumerateMountpoints_table_witness :
    enumerateMountpoints (envOfMounts (mountTable sampleRecords "/dev/sdc1 /mnt/usb".toList)) =
      some ["/".toList, "/mnt/backup".toList] :=
  (enumerateMountpoints_table
    (envOfMounts (mountTable sampleRecords "/dev/sdc1 /mnt/usb".toList))
    sampleRecords "/dev/sdc1 /mnt/usb".toList (by decide) (by decide) rfl).trans (by decide)

/-! ## Signature files (C7, C8, C9) -/

theorem Trim_append_newline (u : Str) (h : '\n' ∉ u) : Trim (u ++ ['\n']) ['\n'] = u := by
  unfold Trim
  cases u with
  | nil => decide
  | cons c cs =>
    have hc : c ≠ '\n' := fun hc => h (hc ▸ List.mem_cons_self _ _)
    have h1 : ((c :: cs) ++ ['\n']).dropWhile (fun c => decide (c ∈ ['\n'])) =
        (c :: cs) ++ ['\n'] := by
      simp [List.dropWhile, hc]
    rw [h1, List.rdropWhile_concat_pos _ _ _ (by simp)]
    rw [List.rdropWhile_eq_self_iff]
    intro hl
    have hmem := List.getLast_mem hl
    intro hp
    simp only [List.mem_singleton, decide_eq_true_eq] at hp
    exact h (hp ▸ hmem)

theorem canonical_no_newline (u : Str) (h : isCanonicalUUID u = true) : '\n' ∉ u := by
  unfold isCanonicalUUID at h
  simp only [Bool.and_eq_true, beq_iff_eq, List.all_eq_true, List.mem_range] at h
  obtain ⟨hlen, hall⟩ := h
  intro hmem
  obtain ⟨i, hi⟩ := List.mem_iff_get?.1 hmem
  have hi36 : i < 36 := by
    have := (List.get?_eq_some.1 hi).1
    omega
  have := hall i hi36
  rw [hi] at this
  simp only at this
  split at this
  · exact absurd this (by decide)
  · exact absurd this (by decide)

theorem ReadFile_setFile (fs : FS) (dir name : Str) (d : Nat) (c : Option Str)
    (hd : fs.dirOf dir = some d) :
    ReadFile (setFile fs d name c) (pathJoin dir name) = c := by
  simp [ReadFile, setFile, pathJoin, hd]

/-- A successful `Write` leaves the signature file holding the identifier and a
newline, and nothing else changed. -/
theorem Write_success (s : Signature) (fs : FS) (io : WriteIO) (dir : Str)
    (h : (s.Write fs io dir).2 = true) :
    ∃ d, fs.dirOf dir = some d ∧
      (s.Write fs io dir).1 = setFile fs d s.Filename (some (s.UUID ++ ['\n'])) := by
  unfold Signature.Write WriteFile Signature.sigFile pathJoin at h ⊢
  cases hd : fs.dirOf dir with
  | none => simp [hd] at h
  | some d =>
    cases hwr : fs.writable dir with
    | false => simp [hd, hwr] at h
    | true =>
      simp only [hd, hwr, if_true, Bool.and_eq_true, decide_eq_true_eq] at h ⊢
      exact ⟨d, rfl, by rw [List.take_of_length_le h.2]⟩

theorem canonical_chars (u : Str) (h : isCanonicalUUID u = true) :
    ∀ c ∈ u, c = '-' ∨ c ∈ hexDigits := by
  unfold isCanonicalUUID at h
  simp only [Bool.and_eq_true, beq_iff_eq, List.all_eq_true, List.mem_range] at h
  obtain ⟨hlen, hall⟩ := h
  intro c hmem
  obtain ⟨i, hi⟩ := List.mem_iff_get?.1 hmem
  have hi36 : i < 36 := by
    have := (List.get?_eq_some.1 hi).1
    omega
  have := hall i hi36
  rw [hi] at this
  simp only at this
  split at this
  · exact Or.inl (by simpa using this)
  · exact Or.inr (by simpa using this)

/-- The model of the UUID library accepts an identifier in canonical textual
form whose version digit is 1 to 5, and prints it back unchanged. -/
theorem gouuidParseHex_canonical (u : Str) (h : isCanonicalUUID u = true)
    (hv : ∃ c, u.get? 14 = some c ∧ c ∈ "12345".toList) : gouuidParseHex u = some u := by
  have hchars := canonical_chars u h
  have hne : ∀ x, (x = '-' ∨ x ∈ hexDigits) → x ≠ 'u' ∧ x ≠ '{' ∧ x ≠ '}' := by
    intro x hx
    rcases hx with hx | hx
    · subst hx; decide
    · revert x; decide
  have hurn : dropUrn u = u := by
    unfold dropUrn
    split
    · exact absurd rfl (hne 'u' (hchars 'u' (by simp))).1
    · rfl
  have hopen : dropOpen u = u := by
    unfold dropOpen
    split
    · exact absurd rfl (hne '{' (hchars '{' (by simp))).2.1
    · rfl
  have hclose : dropClose u = u := by
    unfold dropClose
    split
    · rename_i hl
      obtain ⟨ys, hys⟩ := List.getLast?_eq_some_iff.1 hl
      exact absurd rfl (hne '}' (hchars '}' (by rw [hys]; simp))).2.2
    · rfl
  have hsub : ∀ x ∈ hexDigits, x ∈ alnumLower := by decide
  unfold isCanonicalUUID at h
  simp only [Bool.and_eq_true, beq_iff_eq, List.all_eq_true, List.mem_range] at h
  obtain ⟨hlen, hall⟩ := h
  have hcore : hexPatternCore u = true := by
    unfold hexPatternCore
    simp only [Bool.and_eq_true, beq_iff_eq, List.all_eq_true, List.mem_range]
    refine ⟨hlen, ?_⟩
    intro i hi
    have hi1 := hall i hi
    cases hget : u.get? i with
    | none => rw [hget] at hi1; exact absurd hi1 (by simp)
    | some c =>
      rw [hget] at hi1
      simp only at hi1 ⊢
      by_cases hdash : i ∈ [8, 13, 18, 23]
      · rw [if_pos hdash] at hi1 ⊢; exact hi1
      · rw [if_neg hdash] at hi1 ⊢
        by_cases h14 : i = 14
        · rw [if_pos h14]
          subst h14
          obtain ⟨c1, hc1, hc1m⟩ := hv
          rw [hget] at hc1
          cases hc1
          simpa using hc1m
        · rw [if_neg h14]
          have hc : c ∈ hexDigits := by simpa using hi1
          simpa using hsub c hc
  have hhex : u.all (fun c => c == '-' || decide (c ∈ hexDigits)) = true := by
    simp only [List.all_eq_true, Bool.or_eq_true, beq_iff_eq, decide_eq_true_eq]
    exact hchars
  unfold gouuidParseHex
  simp only [hurn, hopen, hclose, hcore, hhex, Bool.and_self, if_true]

/-- On the contents that the concrete worlds store, the stand-in `canonicalOnly`
and the model of the UUID library give the same result. -/
theorem canonicalOnly_agrees :
    canonicalOnly uuid1 = gouuidParseHex uuid1 ∧
      canonicalOnly uuid2 = gouuidParseHex uuid2 ∧
      canonicalOnly ('\n' :: uuid1) = gouuidParseHex ('\n' :: uuid1) ∧
      canonicalOnly "not an identifier".toList =
        gouuidParseHex "not an identifier".toList := by
  decide

/-- C7, counterexample: the nil identifier is in canonical textual form; `Write`
into `/home/u` succeeds and the file holds it followed by one newline, but
`ReadSignature` on the resulting file system fails, because the UUID library
rejects the version digit 0. -/
theorem nil_identifier_written_not_read :
    isCanonicalUUID nilUUID = true ∧
      ((⟨nilUUID, sigName⟩ : Signature).Write scenarioFS fullWrite "/home/u".toList).2 =
        true ∧
      ReadFile ((⟨nilUUID, sigName⟩ : Signature).Write scenarioFS fullWrite
          "/home/u".toList).1 ((⟨nilUUID, sigName⟩ : Signature).sigFile "/home/u".toList) =
        some (nilUUID ++ ['\n']) ∧
      gouuidParseHex nilUUID = none ∧
      ReadSignature gouuidEnv ((⟨nilUUID, sigName⟩ : Signature).Write scenarioFS fullWrite
          "/home/u".toList).1 "/home/u".toList sigName = none := by
  decide

/-- C7, amended: for a signature with file name `f` whose identifier `u` is in
canonical textual form and is accepted by the identifier parser and printed back
unchanged, when `Write` succeeds the signature file holds exactly `u` followed
by one newline, and `ReadSignature` on the resulting file system succeeds with
the identifier `u`. -/
theorem Write_ReadSignature_roundtrip (env : Env) (fs : FS) (io : WriteIO) (dir f u : Str)
    (hcanon : isCanonicalUUID u = true) (hlib : env.ParseHex u = some u)
    (hw : ((⟨u, f⟩ : Signature).Write fs io dir).2 = true) :
    ReadFile ((⟨u, f⟩ : Signature).Write fs io dir).1 ((⟨u, f⟩ : Signature).sigFile dir) =
        some (u ++ ['\n']) ∧
      ReadSignature env ((⟨u, f⟩ : Signature).Write fs io dir).1 dir f = some ⟨u, []⟩ ∧
      ∃ s, ReadSignature env ((⟨u, f⟩ : Signature).Write fs io dir).1 dir f = some s ∧
        s.UUID = u := by
  obtain ⟨d, hd, hfs⟩ := Write_success ⟨u, f⟩ fs io dir hw
  rw [hfs]
  have hr : ReadFile (setFile fs d f (some (u ++ ['\n']))) (pathJoin dir f) =
      some (u ++ ['\n']) := ReadFile_setFile fs dir f d _ hd
  have hrs : ReadSignature env (setFile fs d f (some (u ++ ['\n']))) dir f =
      some ⟨u, []⟩ := by
    unfold ReadSignature Signature.sigFile
    simp only [hr, Trim_append_newline u (canonical_no_newline u hcanon), hlib]
  exact ⟨hr, hrs, _, hrs, rfl⟩

/-- C7, witness: writing `uuid1` as `.signature` into `/home/u` of the scenario
file system, read back with the model of the UUID library. -/
theorem Write_ReadSignature_roundtrip_witness :
    ReadFile ((⟨uuid1, sigName⟩ : Signature).Write scenarioFS fullWrite "/home/u".toList).1
        ((⟨uuid1, sigName⟩ : Signature).sigFile "/home/u".toList) =
      some (uuid1 ++ ['\n']) ∧
    ReadSignature gouuidEnv
        ((⟨uuid1, sigName⟩ : Signature).Write scenarioFS fullWrite "/home/u".toList).1
        "/home/u".toList sigName = some ⟨uuid1, []⟩ ∧
    ∃ s, ReadSignature gouuidEnv
        ((⟨uuid1, sigName⟩ : Signature).Write scenarioFS fullWrite "/home/u".toList).1
        "/home/u".toList sigName = some s ∧ s.UUID = uuid1 :=
  Write_ReadSignature_roundtrip gouuidEnv scenarioFS fullWrite "/home/u".toList sigName uuid1
    (by decide) (by decide) (by decide)

/-- C8, counterexample: the signature file of `/home/u/project-a` holds an empty
line, the identifier and a newline.  With the newline at the end removed the
content is not a canonical identifier string (and the UUID library rejects it),
yet `ReadSignature` succeeds and `Find` lists the directory. -/
theorem ReadSignature_accepts_leading_newline :
    ReadFile leadingNewlineFS (pathJoin "/home/u/project-a".toList sigName) =
        some ('\n' :: (uuid1 ++ ['\n'])) ∧
      trimTrailingNewline ('\n' :: (uuid1 ++ ['\n'])) = '\n' :: uuid1 ∧
      isCanonicalUUID ('\n' :: uuid1) = false ∧
      homeOnlyEnv.ParseHex ('\n' :: uuid1) = none ∧
      ReadSignature homeOnlyEnv leadingNewlineFS "/home/u/project-a".toList sigName =
        some ⟨uuid1, []⟩ ∧
      (Find homeOnlyEnv leadingNewlineFS (mkRun fun _ => 0) sigName [] 1).map
        (fun res => res.1 uuid1) = some (some ["/home/u/project-a".toList]) := by
  decide

/-- C8, amended: for every directory whose signature file content, after all
leading and trailing newlines are trimmed, is not accepted by the identifier
parser, `ReadSignature` returns an error, and whenever `Find` returns, the
directory's path appears under no identifier of its output. -/
theorem ReadSignature_malformed (env : Env) (fs : FS) (dir filename b : Str)
    (hb : ReadFile fs (pathJoin dir filename) = some b)
    (hbad : env.ParseHex (Trim b ['\n']) = none) :
    ReadSignature env fs dir filename = none ∧
      ∀ (run : Run) (dirHint : Str) (depth : Nat) res u,
        Find env fs run filename dirHint depth = some res → ¬ inGroup res.1 u dir := by
  have hrs : ReadSignature env fs dir filename = none := by
    unfold ReadSignature Signature.sigFile
    simp only [hb, hbad]
  refine ⟨hrs, ?_⟩
  intro run dirHint depth res u hfind hin
  unfold Find at hfind
  cases hsl : searchLocations env fs dirHint depth with
  | none => rw [hsl] at hfind; exact absurd hfind (by simp)
  | some m =>
    rw [hsl] at hfind
    simp only [Option.map_some', Option.some.injEq] at hfind
    subst hfind
    obtain ⟨s, i, _, _, hread⟩ := findFrom_sound env fs run filename m u dir hin
    rw [hrs] at hread
    exact absurd hread (by simp)

/-- C8, witness: the signature file of `/home/u/project-a` holds the text
`not an identifier`. -/
theorem ReadSignature_malformed_witness :
    ReadSignature homeOnlyEnv malformedFS "/home/u/project-a".toList sigName = none ∧
      ∀ (run : Run) (dirHint : Str) (depth : Nat) res u,
        Find homeOnlyEnv malformedFS run sigName dirHint depth = some res →
          ¬ inGroup res.1 u "/home/u/project-a".toList :=
  ReadSignature_malformed homeOnlyEnv malformedFS "/home/u/project-a".toList sigName
    "not an identifier\n".toList (by decide) (by decide)

/-- C9, counterexample: `/home/u/project-a` holds the signature `uuid1` and is
mounted read-only.  With force set and the new identifier `uuid2` drawn, the
write fails and the file still holds `uuid1`: it has not been replaced. -/
theorem forced_new_signature_not_written :
    ReadFile scenarioReadOnlyFS (pathJoin "/home/u/project-a".toList sigName) =
        some (uuid1 ++ ['\n']) ∧
      ((⟨uuid2, sigName⟩ : Signature).Write scenarioReadOnlyFS fullWrite
          "/home/u/project-a".toList).2 = false ∧
      (dirsigCmdNew scenarioReadOnlyFS fullWrite (some uuid2) "/home/u/project-a".toList
          sigName true).map
          (fun fs1 => ReadFile fs1 (pathJoin "/home/u/project-a".toList sigName)) =
        some (some (uuid1 ++ ['\n'])) ∧
      uuid1 ++ ['\n'] ≠ uuid2 ++ ['\n'] := by
  decide

/-- C9, amended: in a directory that already holds a file under the configured
signature file name, `dirsigCmdNew` without force leaves the file system as it
was, so the stored content is unchanged; with force and a drawn identifier `u`
the command ends with the file system that `Write` of the new signature leaves,
and when that write succeeds the file holds `u` followed by a newline. -/
theorem dirsigCmdNew_existing (fs : FS) (io : WriteIO) (newV4 : Option Str)
    (dir filename c : Str)
    (hex : ReadFile fs (pathJoin dir filename) = some c) :
    (dirsigCmdNew fs io newV4 dir filename false = some fs ∧
      ∀ fs1, dirsigCmdNew fs io newV4 dir filename false = some fs1 →
        ReadFile fs1 (pathJoin dir filename) = some c) ∧
    (∀ u, dirsigCmdNew fs io (some u) dir filename true =
        some ((⟨u, filename⟩ : Signature).Write fs io dir).1) ∧
    (∀ u, ((⟨u, filename⟩ : Signature).Write fs io dir).2 = true →
      ∃ fs1, dirsigCmdNew fs io (some u) dir filename true = some fs1 ∧
        ReadFile fs1 (pathJoin dir filename) = some (u ++ ['\n'])) := by
  have h1 : dirsigCmdNew fs io newV4 dir filename false = some fs := by
    unfold dirsigCmdNew Stat
    simp [hex]
  have h2 : ∀ u, dirsigCmdNew fs io (some u) dir filename true =
      some ((⟨u, filename⟩ : Signature).Write fs io dir).1 := by
    intro u
    unfold dirsigCmdNew NewSignature
    simp only [Bool.not_true, Bool.false_and, Bool.false_eq_true, if_false]
    split <;> rename_i heq <;> rw [heq]
  have hd : ∃ d, fs.dirOf dir = some d := by
    unfold ReadFile pathJoin at hex
    cases hdir : fs.dirOf dir with
    | none => simp [hdir] at hex
    | some d => exact ⟨d, rfl⟩
  obtain ⟨d, hd⟩ := hd
  refine ⟨⟨h1, ?_⟩, h2, ?_⟩
  · intro fs1 h
    rw [h1] at h
    cases h
    exact hex
  · intro u hw
    refine ⟨_, h2 u, ?_⟩
    obtain ⟨d1, hd1, hfs⟩ := Write_success ⟨u, filename⟩ fs io dir hw
    rw [hfs]
    exact ReadFile_setFile fs dir filename d1 _ hd1

/-- C9, witness: `/home/u/project-a` of the scenario already holds `uuid1`; a new
signature `uuid2` is requested. -/
theorem dirsigCmdNew_existing_witness :
    (dirsigCmdNew scenarioFS fullWrite (some uuid2) "/home/u/project-a".toList sigName
        false = some scenarioFS ∧
      ∀ fs1, dirsigCmdNew scenarioFS fullWrite (some uuid2) "/home/u/project-a".toList
          sigName false = some fs1 →
        ReadFile fs1 (pathJoin "/home/u/project-a".toList sigName) =
          some (uuid1 ++ ['\n'])) ∧
    (∀ u, dirsigCmdNew scenarioFS fullWrite (some u) "/home/u/project-a".toList sigName
        true =
        some ((⟨u, sigName⟩ : Signature).Write scenarioFS fullWrite
          "/home/u/project-a".toList).1) ∧
    (∀ u, ((⟨u, sigName⟩ : Signature).Write scenarioFS fullWrite
        "/home/u/project-a".toList).2 = true →
      ∃ fs1, dirsigCmdNew scenarioFS fullWrite (some u) "/home/u/project-a".toList sigName
          true = some fs1 ∧
        ReadFile fs1 (pathJoin "/home/u/project-a".toList sigName) = some (u ++ ['\n'])) :=
  dirsigCmdNew_existing scenarioFS fullWrite (some uuid2) "/home/u/project-a".toList
    sigName (uuid1 ++ ['\n']) (by decide)

/-- A forced write that fails after the file was opened: the old identifier is
gone and the new one is not there. -/
theorem forced_write_failing_after_open :
    ((⟨uuid2, sigName⟩ : Signature).Write scenarioFS failedWrite
        "/home/u/project-a".toList).2 = false ∧
      (dirsigCmdNew scenarioFS failedWrite (some uuid2) "/home/u/project-a".toList sigName
          true).map
          (fun fs1 => ReadFile fs1 (pathJoin "/home/u/project-a".toList sigName)) =
        some (some []) := by
  decide

/-! ## Two successive calls (C10) -/

/-- The identifiers of the returned map are those with a recorded path. -/
theorem findFrom_isSome (env : Env) (fs : FS) (run : Run) (hf : FreshProbes fs run)
    (filename : Str) (m : List Str) (u : Str) :
    (findFrom env fs run filename m).1 u ≠ none ↔
      ∃ p, member (buckets env fs run filename m) ⟨u, []⟩ p := by
  obtain ⟨_, h2, h3⟩ := findFrom_eq env fs run hf filename m
  constructor
  · intro hne
    by_contra hno
    apply hne
    apply h3 u
    intro g hg hgu
    apply hno
    obtain ⟨s, j⟩ := g
    obtain ⟨hfn, hj⟩ := (buckets_ok env fs run filename m).2 _ hg
    have hs : s = ⟨u, []⟩ := by
      cases s
      simp only at hgu hfn
      subst hgu hfn
      rfl
    subst hs
    obtain ⟨p, hp⟩ := List.exists_mem_of_ne_nil j hj
    exact ⟨p, j, hg, hp⟩
  · rintro ⟨p, j, hj, _⟩
    have := h2 _ hj
    simp only at this
    rw [this]
    simp

theorem member_buckets_run (env : Env) (fs : FS) (run1 run2 : Run) (filename : Str)
    (m : List Str) (s : Signature) (p : Str)
    (h : member (buckets env fs run1 filename m) s p) :
    member (buckets env fs run2 filename m) s p :=
  (member_buckets env fs run2 filename m s p).2
    ((member_buckets env fs run1 filename m s p).1 h)

theorem findFrom_inGroup_member (env : Env) (fs : FS) (run : Run) (hf : FreshProbes fs run)
    (filename : Str) (m : List Str) (u p : Str)
    (h : inGroup (findFrom env fs run filename m).1 u p) :
    member (buckets env fs run filename m) ⟨u, []⟩ p := by
  obtain ⟨j, hj, hp⟩ := (findFrom_inGroup env fs run hf filename m u p).1 h
  exact ⟨j, hj, collapseAll_subset fs _ j p hp⟩

/-- C10, counterexample: two successive calls on the three aliases, the second
on the file system the first one left.  The first iterates its bucket `/home/u`
first and returns `/home/u`, the second iterates `/mnt/b` first and returns
`/mnt/b`: the path sets for the identifier differ. -/
theorem successive_Find_differ :
    ((Find tripleEnv tripleFS
          (mkRun fun p => if p = "/home/u".toList then 0 else 1) sigName [] 0).bind
        fun res1 =>
          (Find tripleEnv res1.2
            (mkRun fun p => if p = "/mnt/b".toList then 0 else 1) sigName [] 0).map
          fun res2 => (res1.1 uuid1, res2.1 uuid1)) =
      some (some ["/home/u".toList], some ["/mnt/b".toList]) ∧
    "/home/u".toList ∉ ["/mnt/b".toList] := by
  decide

/-- C10, amended: probe names being new, two successive `Find` calls return, the
first leaves the file system unchanged, and for all schedulings and iteration
orders of the two calls the returned mappings have the same identifiers; for
each identifier every path of one result is in the other result or has an alias
there (the results name the same physical directories), and the two path sets
are equal when no two recorded paths of that identifier are aliases. -/
theorem Find_twice (env : Env) (fs : FS) (run1 run2 : Run)
    (filename dirHint : Str) (depth : Nat) (m : List Str)
    (hm : searchLocations env fs dirHint depth = some m)
    (hf1 : FreshProbes fs run1) (hf2 : FreshProbes fs run2) :
    ∃ res1 res2, Find env fs run1 filename dirHint depth = some res1 ∧ res1.2 = fs ∧
      Find env res1.2 run2 filename dirHint depth = some res2 ∧
      (∀ u, res1.1 u ≠ none ↔ res2.1 u ≠ none) ∧
      (∀ u p, inGroup res1.1 u p →
        inGroup res2.1 u p ∨ ∃ q, inGroup res2.1 u q ∧ q ≠ p ∧ sameDir fs q p = true) ∧
      (∀ u p, inGroup res2.1 u p →
        inGroup res1.1 u p ∨ ∃ q, inGroup res1.1 u q ∧ q ≠ p ∧ sameDir fs q p = true) ∧
      (∀ u, (∀ p q, member (buckets env fs run1 filename m) ⟨u, []⟩ p →
            member (buckets env fs run1 filename m) ⟨u, []⟩ q → p ≠ q →
            sameDir fs p q = false) →
        ∀ p, inGroup res1.1 u p ↔ inGroup res2.1 u p) := by
  have hfs : (findFrom env fs run1 filename m).2 = fs :=
    (findFrom_eq env fs run1 hf1 filename m).1
  refine ⟨findFrom env fs run1 filename m, findFrom env fs run2 filename m,
    Find_eq env fs run1 filename dirHint depth m hm, hfs, ?_, ?_, ?_, ?_, ?_⟩
  · rw [hfs]; exact Find_eq env fs run2 filename dirHint depth m hm
  · intro u
    rw [findFrom_isSome env fs run1 hf1, findFrom_isSome env fs run2 hf2]
    constructor
    · rintro ⟨p, hp⟩; exact ⟨p, member_buckets_run env fs run1 run2 filename m _ p hp⟩
    · rintro ⟨p, hp⟩; exact ⟨p, member_buckets_run env fs run2 run1 filename m _ p hp⟩
  · intro u p hp
    exact findFrom_complete env fs run2 hf2 filename m u p
      (member_buckets_run env fs run1 run2 filename m _ p
        (findFrom_inGroup_member env fs run1 hf1 filename m u p hp))
  · intro u p hp
    exact findFrom_complete env fs run1 hf1 filename m u p
      (member_buckets_run env fs run2 run1 filename m _ p
        (findFrom_inGroup_member env fs run2 hf2 filename m u p hp))
  · intro u hfree p
    have key : ∀ (run : Run) (hf : FreshProbes fs run),
        inGroup (findFrom env fs run filename m).1 u p ↔
          member (buckets env fs run1 filename m) ⟨u, []⟩ p := by
      intro run hf
      constructor
      · intro h
        exact member_buckets_run env fs run run1 filename m _ p
          (findFrom_inGroup_member env fs run hf filename m u p h)
      · intro h
        obtain ⟨j, hj, hpj⟩ := member_buckets_run env fs run1 run filename m _ p h
        refine (findFrom_inGroup env fs run hf filename m u p).2 ⟨j, hj, ?_⟩
        apply collapseAll_keeps_isolated fs _ j p hpj
        intro l hl hne
        exact hfree l p
          (member_buckets_run env fs run run1 filename m _ l ⟨j, hj, hl⟩) h hne
    rw [key run1 hf1, key run2 hf2]

/-- C10, witness: two calls on the scenario of the specification with opposite
iteration orders. -/
theorem Find_twice_witness :
    ∃ res1 res2,
      Find scenarioEnv scenarioFS (mkRun fun _ => 0) sigName [] 1 = some res1 ∧
      res1.2 = scenarioFS ∧
      Find scenarioEnv res1.2 (mkRun fun p => 100 - p.length) sigName [] 1 = some res2 ∧
      (∀ u, res1.1 u ≠ none ↔ res2.1 u ≠ none) ∧
      (∀ u p, inGroup res1.1 u p →
        inGroup res2.1 u p ∨
          ∃ q, inGroup res2.1 u q ∧ q ≠ p ∧ sameDir scenarioFS q p = true) ∧
      (∀ u p, inGroup res2.1 u p →
        inGroup res1.1 u p ∨
          ∃ q, inGroup res1.1 u q ∧ q ≠ p ∧ sameDir scenarioFS q p = true) ∧
      (∀ u, (∀ p q,
            member (buckets scenarioEnv scenarioFS (mkRun fun _ => 0) sigName
              ["/home/u".toList, "/home/u/project-a".toList, "/mnt/backup".toList,
               "/mnt/backup/project-a".toList]) ⟨u, []⟩ p →
            member (buckets scenarioEnv scenarioFS (mkRun fun _ => 0) sigName
              ["/home/u".toList, "/home/u/project-a".toList, "/mnt/backup".toList,
               "/mnt/backup/project-a".toList]) ⟨u, []⟩ q → p ≠ q →
            sameDir scenarioFS p q = false) →
        ∀ p, inGroup res1.1 u p ↔ inGroup res2.1 u p) :=
  Find_twice scenarioEnv scenarioFS (mkRun fun _ => 0) (mkRun fun p => 100 - p.length)
    sigName [] 1 _ (by decide) (FreshProbes_scenario _) (FreshProbes_scenario _)

/-! ## The file system after `Find` (C11) -/

/-- Between creation and removal the probe is there: the state after
`ioutil.TempFile` holds a file that the state before did not hold, so it is the
removal that restores the file system. -/
theorem TempFile_changes (fs fs1 : FS) (k pfx sfx name : Str)
    (h : TempFile fs k pfx sfx = some (fs1, name)) :
    ∃ d, fs.dirOf k = some d ∧ fs.file d name = none ∧ fs1.file d name = some [] ∧
      fs1 ≠ fs ∧ Remove fs1 (pathJoin k name) = fs := by
  unfold TempFile at h
  cases hk : fs.dirOf k with
  | none => rw [hk] at h; exact absurd h (by simp)
  | some d =>
    rw [hk] at h
    simp only at h
    split at h
    · rename_i hc
      simp only [Option.some.injEq, Prod.mk.injEq] at h
      obtain ⟨h1, h2⟩ := h
      subst h1 h2
      have hnew : (setFile fs d (pfx ++ sfx) (some [])).file d (pfx ++ sfx) = some [] := by
        simp [setFile]
      refine ⟨d, rfl, hc.2, hnew, ?_, ?_⟩
      · intro heq
        rw [heq, hc.2] at hnew
        exact absurd hnew (by simp)
      · simp only [Remove, pathJoin, setFile, hk]
        exact setFile_restore fs d _ _ hc.2
    · exact absurd h (by simp)

/-- C11: whenever the mount enumeration does not panic, `Find` returns and the
file system it leaves equals the file system before the call (removing a probe
that was just created succeeds in this model): every file has the content it
had, no file has been created or deleted, and for every directory path through
which a probe file can be created, the probe file is absent afterwards although
it was present right after its creation. -/
theorem Find_restores_file_system (env : Env) (fs : FS) (run : Run)
    (filename dirHint : Str) (depth : Nat) (m : List Str)
    (hm : searchLocations env fs dirHint depth = some m) :
    ∃ res, Find env fs run filename dirHint depth = some res ∧ res.2 = fs ∧
      (∀ d n, res.2.file d n = fs.file d n) ∧
      (∀ k fs1 name, TempFile fs k ".goannex".toList (run.rnd k) = some (fs1, name) →
        ∃ d, fs.dirOf k = some d ∧ fs1.file d name = some [] ∧ res.2.file d name = none) := by
  have hfs : (findFrom env fs run filename m).2 = fs := (rangeGroups_sound run fs _ _).1
  refine ⟨_, Find_eq env fs run filename dirHint depth m hm, hfs, ?_, ?_⟩
  · intro d n
    rw [hfs]
  · intro k fs1 name h
    obtain ⟨d, hd, hnone, hsome, _, _⟩ := TempFile_changes fs fs1 k _ _ name h
    exact ⟨d, hd, hsome, by rw [hfs]; exact hnone⟩

/-- C11, witness: the three aliases of one writable directory, where probes are
created and two members are deleted. -/
theorem Find_restores_file_system_witness :
    ∃ res, Find tripleEnv tripleFS (mkRun fun _ => 0) sigName [] 0 = some res ∧
      res.2 = tripleFS ∧
      (∀ d n, res.2.file d n = tripleFS.file d n) ∧
      (∀ k fs1 name,
        TempFile tripleFS k ".goannex".toList ((mkRun fun _ => 0).rnd k) = some (fs1, name) →
        ∃ d, tripleFS.dirOf k = some d ∧ fs1.file d name = some [] ∧
          res.2.file d name = none) :=
  Find_restores_file_system tripleEnv tripleFS (mkRun fun _ => 0) sigName [] 0
    ["/home/u".toList, "/mnt/a".toList, "/mnt/b".toList] (by decide)

/-- On the three aliases the probes are really made: the first visit creates
`.goannex123` in the shared directory and deletes the two other members, and the
signature file reads the same before and after the call. -/
theorem Find_triple_probes :
    (TempFile tripleFS "/home/u".toList ".goannex".toList "123".toList).isSome = true ∧
      (probeStep (mkRun fun _ => 0) tripleFS
          ["/home/u".toList, "/mnt/a".toList, "/mnt/b".toList] "/home/u".toList).1 =
        ["/home/u".toList] ∧
      (Find tripleEnv tripleFS (mkRun fun _ => 0) sigName [] 0).map
          (fun res => (ReadFile res.2 (pathJoin "/home/u".toList sigName),
            ReadFile res.2 (pathJoin "/home/u".toList ".goannex123".toList))) =
        some (ReadFile tripleFS (pathJoin "/home/u".toList sigName), none) := by
  decide

/-! ## `sanePrecision` (C12) -/

/-- C12, the code at the failing input: for `d` = 500µs the result depends on the
order in which `range order` visits the thresholds.  Visiting `time.Millisecond`
first gives 500µs, the value the claim states; visiting `time.Second` first gives
1ms, visiting `time.Minute` or `time.Hour` first gives 0. -/
theorem sanePrecision_depends_on_iteration :
    sanePrecisionSpec 500000 = 500000 ∧
      sanePrecision ascending 500000 = 500000 ∧
      sanePrecision (startingAt Second) 500000 = 1000000 ∧
      sanePrecision (startingAt Minute) 500000 = 0 ∧
      sanePrecision (startingAt Hour) 500000 = 0 ∧
      orderBy (fun e => startingAt Second e.1) order =
        [(Second, Millisecond), (Millisecond, Microsecond), (Minute, Second),
          (Hour, Second)] := by
  decide

theorem wrap64_id (x : Int) (h1 : -9223372036854775808 ≤ x) (h2 : x < 9223372036854775808) :
    wrap64 x = x := by
  unfold wrap64
  omega

/-- Without overflow the expression `((d + j/2) / j) * j` is the rounding to the
nearest multiple of `j` over the integers. -/
theorem roundExpr_eq (d j : Int) (hd : 0 ≤ d) (hj : 0 < j)
    (hsum : d + j / 2 < 9223372036854775808) :
    roundExpr d j = (d + j / 2) / j * j := by
  have hj2 : 0 ≤ j / 2 := Int.ediv_nonneg (le_of_lt hj) (by decide)
  have hs0 : 0 ≤ d + j / 2 := by omega
  have hq0 : 0 ≤ (d + j / 2) / j := Int.ediv_nonneg hs0 (le_of_lt hj)
  have hle : (d + j / 2) / j * j ≤ d + j / 2 := Int.ediv_mul_le _ (ne_of_gt hj)
  have hp0 : 0 ≤ (d + j / 2) / j * j := mul_nonneg hq0 (le_of_lt hj)
  unfold roundExpr
  rw [Int.tdiv_eq_ediv (le_of_lt hj) (by decide), wrap64_id _ (by omega) hsum,
    Int.tdiv_eq_ediv hs0 (le_of_lt hj), wrap64_id _ (by omega) (by omega)]

theorem sanePrecisionLoop_none (d : Int) :
    ∀ l : List (Int × Int), (∀ e ∈ l, ¬ d < e.1) → sanePrecisionLoop d l = none := by
  intro l
  induction l with
  | nil => intro _; rfl
  | cons e l ih =>
    obtain ⟨i, j⟩ := e
    intro h
    have hi : ¬ d < i := h (i, j) (List.mem_cons_self _ _)
    rw [sanePrecisionLoop, if_neg hi]
    exact ih (fun e he => h e (List.mem_cons_of_mem _ he))

/-- When all thresholds above `d` carry the same unit `j`, the loop returns the
rounding to `j` whatever the visiting order. -/
theorem sanePrecisionLoop_uniform (d j : Int) :
    ∀ l : List (Int × Int), (∀ e ∈ l, d < e.1 → e.1 ≠ 0 ∧ e.2 = j) →
      (∃ e, e ∈ l ∧ d < e.1) → sanePrecisionLoop d l = some (roundExpr d j) := by
  intro l
  induction l with
  | nil => rintro _ ⟨e, he, _⟩; exact absurd he (List.not_mem_nil e)
  | cons e l ih =>
    obtain ⟨i, j1⟩ := e
    intro h hex
    by_cases hi : d < i
    · obtain ⟨h0, hj⟩ := h (i, j1) (List.mem_cons_self _ _) hi
      simp only at h0 hj
      rw [sanePrecisionLoop, if_pos hi, if_neg h0, hj]
    · rw [sanePrecisionLoop, if_neg hi]
      apply ih (fun e he => h e (List.mem_cons_of_mem _ he))
      obtain ⟨e, he, hde⟩ := hex
      rcases List.mem_cons.1 he with h1 | h1
      · subst h1; exact absurd hde hi
      · exact ⟨e, h1, hde⟩

theorem mem_order (e : Int × Int) :
    e ∈ order ↔ e = (Millisecond, Microsecond) ∨ e = (Second, Millisecond) ∨
      e = (Minute, Second) ∨ e = (Hour, Second) := by
  simp [order]

/-- From one second on (and below the overflow of `d + 30s`) the result of
`sanePrecision` does not depend on the iteration order and is the rounding the
comments describe: to the second below one hour, to the minute from there on. -/
theorem sanePrecision_from_one_second (iter : Int → Nat) (d : Int) (hd : Second ≤ d)
    (hmax : d + 30000000000 < 9223372036854775808) :
    sanePrecision iter d = sanePrecisionSpec d := by
  have hd0 : (1000000000 : Int) ≤ d := hd
  unfold sanePrecision sanePrecisionSpec saneUnit
  by_cases hh : d < Hour
  · have hh0 : d < 3600000000000 := hh
    have hloop : sanePrecisionLoop d (orderBy (fun e => iter e.1) order) =
        some (roundExpr d Second) := by
      apply sanePrecisionLoop_uniform
      · intro e he hde
        rcases (mem_order e).1 ((mem_orderBy _ _ _).1 he) with h | h | h | h <;> subst h
        · exact absurd hde (by simp only [Millisecond]; omega)
        · exact absurd hde (by simp only [Second]; omega)
        · exact ⟨by decide, rfl⟩
        · exact ⟨by decide, rfl⟩
      · exact ⟨(Hour, Second), (mem_orderBy _ _ _).2 ((mem_order _).2 (by simp)), hh⟩
    rw [hloop]
    simp only
    rw [if_neg (by simp only [Millisecond]; omega), if_neg (by simp only [Second]; omega),
      if_pos hh]
    exact roundExpr_eq d Second (by omega) (by decide) (by simp only [Second]; omega)
  · have hh0 : 3600000000000 ≤ d := not_lt.1 hh
    have hloop : sanePrecisionLoop d (orderBy (fun e => iter e.1) order) = none := by
      apply sanePrecisionLoop_none
      intro e he
      rcases (mem_order e).1 ((mem_orderBy _ _ _).1 he) with h | h | h | h <;> subst h
      · simp only [Millisecond]; omega
      · simp only [Second]; omega
      · simp only [Minute]; omega
      · simp only [Hour]; omega
    rw [hloop]
    simp only
    rw [if_neg (by simp only [Millisecond]; omega), if_neg (by simp only [Second]; omega),
      if_neg hh]
    exact roundExpr_eq d Minute (by omega) (by decide) (by simp only [Minute]; omega)

/-- When the thresholds are visited in increasing order, `sanePrecision` is the
rounding the comments describe for every non-negative duration below the
overflow of `d + 30s`. -/
theorem sanePrecision_ascending (d : Int) (hd : 0 ≤ d)
    (hmax : d + 30000000000 < 9223372036854775808) :
    sanePrecision ascending d = sanePrecisionSpec d := by
  by_cases hs : Second ≤ d
  · exact sanePrecision_from_one_second ascending d hs hmax
  · have hs0 : d < 1000000000 := not_le.1 hs
    have hord : orderBy (fun e => ascending e.1) order = order := by decide
    unfold sanePrecision sanePrecisionSpec saneUnit
    rw [hord]
    by_cases hm : d < Millisecond
    · have hm0 : d < 1000000 := hm
      simp only [order, sanePrecisionLoop, if_pos hm]
      rw [if_neg (by decide)]
      exact roundExpr_eq d Microsecond hd (by decide) (by simp only [Microsecond]; omega)
    · have hm0 : 1000000 ≤ d := not_lt.1 hm
      have hsec : d < Second := hs0
      simp only [order, sanePrecisionLoop, if_neg hm, if_pos hsec]
      rw [if_neg (by decide)]
      exact roundExpr_eq d Millisecond hd (by decide) (by simp only [Millisecond]; omega)

/-- Near the largest duration the sum `d + 30s` overflows: for the largest
`int64` the result is negative, whatever the iteration order. -/
theorem sanePrecision_overflow :
    sanePrecision ascending 9223372036854775807 = -9223371960000000000 ∧
      sanePrecision (startingAt Hour) 9223372036854775807 = -9223371960000000000 ∧
      sanePrecisionSpec 9223372036854775807 = 9223372020000000000 := by
  decide

end Dirsig
